import Mathlib

/-!
Verification development for the beve-js binary codec (BEVE format).

This file gives a shallow embedding, in Lean 4, of the TypeScript codec:

* encoder: src/encoder.ts (writeBeve / write_value), with the byte writers of
  src/writer.ts (class Writer) and src/utils.ts (writeCompressed);
* decoder: src/decoder.ts (readBeve / read_value), with the byte readers of
  src/utils.ts (read_compressed, readInt8 .. readDouble);
* UUID extension: src/extensions/uuid.ts (decodeUUID, validateUUID) and
  src/extensions/types.ts (getUUIDVersion).

Modelling conventions:

* Byte buffers (Uint8Array) are lists of naturals; every entry produced by the
  code is below 256.  Multi-byte reads and writes are little-endian, as in the
  source (all DataView calls pass true for littleEndian).
* JavaScript numbers are split by the encoder into the integral case
  (Number.isInteger true), modelled as an Int, and the remaining case
  (non-integral or non-finite), which the encoder writes as the raw 8 bytes of
  the IEEE-754 double; that case is modelled by the 64-bit pattern itself,
  carried as a Nat below 2 ^ 64.  The float payload round-trips bit-for-bit, so
  no IEEE arithmetic is needed.
* JavaScript strings are modelled as lists of Unicode code points; TextEncoder
  and TextDecoder are modelled by utf8Encode / utf8Decode below, and the
  UTF-16 length property (s.length) by utf16Length.
* Thrown exceptions are modelled with Except; EErr collects the encoder-side
  validation failures, DErr the decoder-side ones.
* The value model JVal is a mutual inductive family (value / element list /
  member list) so that the encoder is plain structural recursion; the decoder
  takes an explicit fuel argument (readBeve supplies length + 1, shown
  sufficient where needed) so that it too is structural and kernel-computable.
-/

namespace Beve

/-! ## Byte-level helpers -/

/-- Byte of a buffer at an index (JS buffer[i]; all uses in the source are
bounds-checked before access, so the default value is never observed). -/
def byteAt (buf : List Nat) (i : Nat) : Nat := buf.getD i 0

/-- Contiguous slice of a buffer: w entries starting at c
(JS buffer.subarray(c, c + w) for in-range arguments). -/
def slice (buf : List Nat) (c w : Nat) : List Nat := (buf.drop c).take w

/-- Little-endian value of a byte list (DataView getUintN with littleEndian). -/
def leVal : List Nat → Nat
  | [] => 0
  | b :: bs => b + 256 * leVal bs

/-- Little-endian bytes of a natural, w bytes wide (DataView setUintN with
littleEndian; only the low 8 * w bits are kept, as in JS). -/
def leBytes : Nat → Nat → List Nat
  | 0, _ => []
  | w + 1, n => n % 256 :: leBytes w (n / 256)

/-- Two's-complement reading of an unsigned w-byte value
(readInt8: value < 128 ? value : value - 256, and the DataView getIntN calls). -/
def toSigned (w : Nat) (u : Nat) : Int :=
  if u < 2 ^ (8 * w - 1) then (u : Int) else (u : Int) - 2 ^ (8 * w)

/-- JS ToInt32: wrap an integer into the signed 32-bit range. -/
def toInt32 (i : Int) : Int :=
  let m := i % (4294967296 : Int)
  if m < 2147483648 then m else m - 4294967296

/-- JS ToUint32: wrap an integer into the unsigned 32-bit range. -/
def toUint32 (i : Int) : Nat := (i % (4294967296 : Int)).toNat

/-- JS 32-bit bitwise or of two signed 32-bit integers. -/
def or32 (a b : Int) : Int := toInt32 (Nat.lor (toUint32 a) (toUint32 b))

/-! ## UTF-8 model (TextEncoder / TextDecoder)

Strings are lists of Unicode code points.  utf8Encode is TextEncoder.encode:
a Unicode scalar value becomes its 1-4 byte UTF-8 sequence; a lone surrogate
becomes the replacement character U+FFFD (as TextEncoder does).  utf8Decode is
TextDecoder.decode in its default non-fatal mode: malformed input produces
U+FFFD following the WHATWG algorithm (invalid bytes are replaced; on a bad
continuation byte the sequence read so far is replaced and decoding resumes at
the offending byte). -/

/-- UTF-8 bytes of one code point (TextEncoder; surrogates map to U+FFFD). -/
def utf8EncodeChar (c : Nat) : List Nat :=
  if c < 128 then [c]
  else if c < 2048 then [192 + c / 64, 128 + c % 64]
  else if 55296 ≤ c ∧ c < 57344 then [239, 191, 189]
  else if c < 65536 then [224 + c / 4096, 128 + c / 64 % 64, 128 + c % 64]
  else [240 + c / 262144, 128 + c / 4096 % 64, 128 + c / 64 % 64, 128 + c % 64]

/-- TextEncoder.encode over a whole string. -/
def utf8Encode (s : List Nat) : List Nat := s.flatMap utf8EncodeChar

/-- JS string length (UTF-16 code units): code points above U+FFFF count 2. -/
def utf16Length (s : List Nat) : Nat :=
  (s.map (fun c => if c < 65536 then 1 else 2)).sum

/-- Whether a byte is a UTF-8 continuation byte (0x80..0xBF). -/
def isCont (b : Nat) : Bool := 128 ≤ b && b < 192

/-- WHATWG range of the second byte of a three-byte sequence: the E0 row
forbids overlong encodings, the ED row surrogates. -/
def cont3Check (b b1 : Nat) : Bool :=
  if b = 224 then 160 ≤ b1 && b1 < 192
  else if b = 237 then 128 ≤ b1 && b1 < 160
  else isCont b1

/-- WHATWG range of the second byte of a four-byte sequence: the F0 row
forbids overlong encodings, the F4 row values above U+10FFFF. -/
def cont4Check (b b1 : Nat) : Bool :=
  if b = 240 then 144 ≤ b1 && b1 < 192
  else if b = 244 then 128 ≤ b1 && b1 < 144
  else isCont b1

/-- Fuelled body of the TextDecoder model; the fuel only makes the recursion
structural, one unit per decoded character, so any fuel above the input length
gives the same result (utf8DecodeF_irrel below). -/
def utf8DecodeF : Nat → List Nat → List Nat
  | 0, _ => []
  | _ + 1, [] => []
  | f + 1, b :: rest =>
    if b < 128 then b :: utf8DecodeF f rest
    else if b < 194 then 65533 :: utf8DecodeF f rest
    else if b < 224 then
      match rest with
      | b1 :: rest1 =>
        if isCont b1 then ((b - 192) * 64 + (b1 - 128)) :: utf8DecodeF f rest1
        else 65533 :: utf8DecodeF f rest
      | [] => [65533]
    else if b < 240 then
      match rest with
      | b1 :: rest1 =>
        if cont3Check b b1 then
          match rest1 with
          | b2 :: rest2 =>
            if isCont b2 then
              ((b - 224) * 4096 + (b1 - 128) * 64 + (b2 - 128)) :: utf8DecodeF f rest2
            else 65533 :: utf8DecodeF f rest1
          | [] => [65533]
        else 65533 :: utf8DecodeF f rest
      | [] => [65533]
    else if b < 245 then
      match rest with
      | b1 :: rest1 =>
        if cont4Check b b1 then
          match rest1 with
          | b2 :: rest2 =>
            if isCont b2 then
              match rest2 with
              | b3 :: rest3 =>
                if isCont b3 then
                  ((b - 240) * 262144 + (b1 - 128) * 4096 + (b2 - 128) * 64 + (b3 - 128))
                    :: utf8DecodeF f rest3
                else 65533 :: utf8DecodeF f rest2
              | [] => [65533]
            else 65533 :: utf8DecodeF f rest1
          | [] => [65533]
        else 65533 :: utf8DecodeF f rest
      | [] => [65533]
    else 65533 :: utf8DecodeF f rest

/-- TextDecoder.decode (non-fatal mode, WHATWG replacement behavior). -/
def utf8Decode (bs : List Nat) : List Nat := utf8DecodeF (bs.length + 1) bs

/-! ## Value models

JVal models the JavaScript values accepted by the encoder (write_value):
undefined, null, booleans, numbers (vint for Number.isInteger values, vfloat
for the rest, carried as the 64-bit IEEE pattern), strings, plain arrays,
plain string-keyed objects, and Uint8Array blobs.  Arrays and objects use the
mutually defined JList / JMembers so the encoder can recurse structurally.

DVal models the JavaScript values produced by the decoder (read_value): the
same primitives, with the width information that survives decoding: 1-4 byte
integers come back as JS numbers (dint), 8-byte integers as BigInt (dbigint),
8-byte floats as doubles (dfloat, by bit pattern), 4-byte floats widened from
float32 (dfloat32, by the 32-bit pattern), plus undefined results of the
unassigned-width fall-through in the source. -/

mutual

inductive JVal where
  | vundef : JVal
  | vnull : JVal
  | vbool (b : Bool) : JVal
  | vint (n : Int) : JVal
  | vfloat (bits : Nat) : JVal
  | vstr (s : List Nat) : JVal
  | varr (xs : JList) : JVal
  | vobj (kvs : JMembers) : JVal
  | vbin (bs : List Nat) : JVal

inductive JList where
  | nil : JList
  | cons (x : JVal) (xs : JList) : JList

inductive JMembers where
  | nil : JMembers
  | cons (k : List Nat) (v : JVal) (rest : JMembers) : JMembers

end

/-- Build a JList from a Lean list (convenience for concrete examples). -/
def JList.ofList : List JVal → JList
  | [] => .nil
  | x :: xs => .cons x (JList.ofList xs)

/-- Build JMembers from a Lean association list (convenience). -/
def JMembers.ofList : List (List Nat × JVal) → JMembers
  | [] => .nil
  | (k, v) :: rest => .cons k v (JMembers.ofList rest)

/-- Array value from a Lean list (convenience for concrete examples). -/
def jarr (xs : List JVal) : JVal := .varr (JList.ofList xs)

/-- Object value from a Lean association list (convenience). -/
def jobj (kvs : List (List Nat × JVal)) : JVal := .vobj (JMembers.ofList kvs)

/-- Number of elements of a JList (JS value.length for an array). -/
def JList.length : JList → Nat
  | .nil => 0
  | .cons _ xs => JList.length xs + 1

/-- Whether a JVal is the undefined value (the source tests
value[key] !== undefined when filtering object members). -/
def isUndef : JVal → Bool
  | .vundef => true
  | _ => false

/-- Object.keys(value).filter(key => value[key] !== undefined).length of
encoder.ts line 181: the number of members whose value is defined. -/
def JMembers.keptCount : JMembers → Nat
  | .nil => 0
  | .cons _ v rest => (if isUndef v then 0 else 1) + JMembers.keptCount rest

/-- The member list with undefined-valued members removed (the filtered key
list of encoder.ts line 181, paired with the values it indexes). -/
def JMembers.filterDefined : JMembers → JMembers
  | .nil => .nil
  | .cons k v rest =>
    if isUndef v then JMembers.filterDefined rest
    else .cons k v (JMembers.filterDefined rest)

/-- Keys of a member list, in order. -/
def JMembers.keys : JMembers → List (List Nat)
  | .nil => []
  | .cons k _ rest => k :: JMembers.keys rest

inductive DVal where
  | dundef : DVal
  | dnull : DVal
  | dbool (b : Bool) : DVal
  | dint (n : Int) : DVal
  | dbigint (n : Int) : DVal
  | dfloat (bits : Nat) : DVal
  | dfloat32 (bits : Nat) : DVal
  | dstr (s : List Nat) : DVal
  | darr (xs : List DVal) : DVal
  | dobj (kvs : List (List Nat × DVal)) : DVal
  | dbin (bs : List Nat) : DVal

/-- Encoder-side failures: the argument validations of Writer.append_uint8 /
append_uint16 / append_uint32 / append_uint64 (writer.ts). -/
inductive EErr where
  | u8 : EErr
  | u16 : EErr
  | u32 : EErr
  | u64 : EErr
deriving Repr, DecidableEq

/-- Decoder-side failures: every source throw whose message starts with
Buffer overflow is truncated; the default arm of read_value (Unknown type) is
unknownType; the integer-key TODO throw is intKeys; fuel is exhaustion of the
structural fuel (unreachable at the fuel readBeve supplies). -/
inductive DErr where
  | truncated : DErr
  | unknownType : DErr
  | intKeys : DErr
  | fuel : DErr
deriving Repr, DecidableEq

/-! ## Encoder (src/writer.ts, src/utils.ts writeCompressed, src/encoder.ts) -/

/-- Writer.append_uint8: validates an integer in 0..255, writes one byte. -/
def append_uint8 (v : Int) : Except EErr (List Nat) :=
  if 0 ≤ v ∧ v ≤ 255 then .ok [v.toNat] else .error .u8

/-- Writer.append_uint16: validates 0..65535, writes 2 bytes little-endian. -/
def append_uint16 (v : Int) : Except EErr (List Nat) :=
  if 0 ≤ v ∧ v ≤ 65535 then .ok (leBytes 2 v.toNat) else .error .u16

/-- Writer.append_uint32: validates 0..4294967295, writes 4 bytes
little-endian. -/
def append_uint32 (v : Int) : Except EErr (List Nat) :=
  if 0 ≤ v ∧ v ≤ 4294967295 then .ok (leBytes 4 v.toNat) else .error .u32

/-- Writer.append_uint64: the source guard is
value <= 18446744073709551615, but that JS literal is a double and rounds to
2 ^ 64, so the accepted range includes 2 ^ 64 itself; the payload is written
as two setUint32 calls on high = Math.floor(value / 2^32) and
low = value % 2^32, and setUint32 wraps its argument modulo 2 ^ 32 (so the
value 2 ^ 64 is silently written as eight zero bytes). -/
def append_uint64 (v : Int) : Except EErr (List Nat) :=
  if 0 ≤ v ∧ v ≤ 18446744073709551616 then
    .ok (leBytes 4 (v.toNat % 4294967296) ++ leBytes 4 (v.toNat / 4294967296 % 4294967296))
  else .error .u64

/-- Modelled from the spec: Writer.append_int8 is called by encoder.ts but its
definition is absent from the snapshot (the Writer class in writer.ts lacks
the signed appenders, while the repository tests exercise them); spec section
4.1/4.3 fixes a little-endian two's-complement write at the stated width. -/
def append_int8 (v : Int) : List Nat := leBytes 1 (v % 256).toNat

/-- Modelled from the spec: Writer.append_int16, little-endian
two's-complement, 2 bytes (see append_int8). -/
def append_int16 (v : Int) : List Nat := leBytes 2 (v % 65536).toNat

/-- Modelled from the spec: Writer.append_int32, little-endian
two's-complement, 4 bytes (see append_int8). -/
def append_int32 (v : Int) : List Nat := leBytes 4 (v % 4294967296).toNat

/-- Modelled from the spec: Writer.append_int64, little-endian
two's-complement, 8 bytes (see append_int8); DataView setBigInt64 wraps its
argument modulo 2 ^ 64. -/
def append_int64 (v : Int) : List Nat := leBytes 8 (v % 18446744073709551616).toNat

/-- utils.ts writeCompressed: the compressed (VarSize) unsigned integer.
N < 64 writes (N << 2) | 0 as one byte; N < 16384 writes (N << 2) | 1 via
append_uint16; N < 2 ^ 30 computes (N << 2) | 2 in JS 32-bit signed
arithmetic, which for N ≥ 2 ^ 29 overflows to a negative value that
append_uint32 then rejects; N < 2 ^ 62 writes ((N << 2n) | 3n) via
setBigUint64; larger N falls off the if-chain and writes nothing. -/
def writeCompressed (N : Nat) : Except EErr (List Nat) :=
  if N < 64 then append_uint8 ((N : Int) * 4)
  else if N < 16384 then append_uint16 ((N : Int) * 4 + 1)
  else if N < 1073741824 then append_uint32 (or32 (toInt32 ((N : Int) * 4)) 2)
  else if N < 4611686018427387904 then .ok (leBytes 8 (N * 4 + 3))
  else .ok []

mutual

/-- encoder.ts write_value.

Branch notes tying the model to the source:
* undefined is turned into null before dispatch (lines 14-17), so the vundef
  arm returns the null encoding directly;
* every arm of the Array.isArray branch (lines 31-90) writes header 5, the
  compressed length, and then each element recursively, so all array shapes
  share one model arm;
* the number branch (lines 103-156): non-finite and non-integral numbers both
  write header 0x61 = 97 and the raw 8 bytes of the double, so both are the
  vfloat arm; integral numbers choose sign and width exactly as in the source
  (headers 9/41/73/105 signed, 17/49/81/113 unsigned);
* the string branch uses the UTF-8 byte length for the size (line 163);
* the object branch filters keys whose value is undefined, writes the
  compressed filtered count, and for each kept key writes
  writeCompressed(key.length) - the UTF-16 length, not the UTF-8 byte
  length - followed by the UTF-8 bytes of the key and the value
  (lines 180-188); write_members walks the unfiltered list skipping undefined
  values, which produces the same byte sequence. -/
def write_value : JVal → Except EErr (List Nat)
  | .vundef => .ok [0]
  | .vnull => .ok [0]
  | .vbool b => .ok [if b then 24 else 8]
  | .vint n =>
    if n < 0 then
      if -128 ≤ n then .ok (9 :: append_int8 n)
      else if -32768 ≤ n then .ok (41 :: append_int16 n)
      else if -2147483648 ≤ n then .ok (73 :: append_int32 n)
      else .ok (105 :: append_int64 n)
    else
      if n ≤ 255 then do pure (17 :: (← append_uint8 n))
      else if n ≤ 65535 then do pure (49 :: (← append_uint16 n))
      else if n ≤ 4294967295 then do pure (81 :: (← append_uint32 n))
      else do pure (113 :: (← append_uint64 n))
  | .vfloat bits => .ok (97 :: leBytes 8 bits)
  | .vstr s => do
    let cnt ← writeCompressed (utf8Encode s).length
    pure (2 :: cnt ++ utf8Encode s)
  | .varr xs => do
    let cnt ← writeCompressed (JList.length xs)
    let parts ← write_list xs
    pure (5 :: cnt ++ parts)
  | .vobj kvs => do
    let cnt ← writeCompressed (JMembers.keptCount kvs)
    let parts ← write_members kvs
    pure (3 :: cnt ++ parts)
  | .vbin bs => do
    let cnt ← writeCompressed bs.length
    pure (6 :: cnt ++ bs)

/-- The element loop of the array arms of write_value: the concatenated
encodings of the elements, in order. -/
def write_list : JList → Except EErr (List Nat)
  | .nil => .ok []
  | .cons x xs => do
    let hd ← write_value x
    let tl ← write_list xs
    pure (hd ++ tl)

/-- The member loop of the object arm of write_value: for each member with a
defined value, the compressed UTF-16 key length, the UTF-8 key bytes, and the
encoded value. -/
def write_members : JMembers → Except EErr (List Nat)
  | .nil => .ok []
  | .cons k v rest =>
    if isUndef v then write_members rest
    else do
      let klen ← writeCompressed (utf16Length k)
      let vb ← write_value v
      let tl ← write_members rest
      pure (klen ++ utf8Encode k ++ vb ++ tl)

end

/-- encoder.ts writeBeve: run write_value on a fresh writer and return the
written prefix. -/
def writeBeve (v : JVal) : Except EErr (List Nat) := write_value v

/-! ## Decoder (src/utils.ts readers, src/decoder.ts) -/

/-- utils.ts read_compressed.  The cursor argument points at the first byte of
the compressed value; the result carries the decoded natural and the new
cursor.  Tag 3 rereads the already-consumed first byte as part of its 8-byte
little-endian value, exactly as the source does. -/
def read_compressed (buf : List Nat) (c : Nat) : Except DErr (Nat × Nat) :=
  if c < buf.length then
    let header := byteAt buf c
    match header % 4 with
    | 0 => .ok (header / 4, c + 1)
    | 1 =>
      if c + 2 ≤ buf.length then
        .ok ((header + byteAt buf (c + 1) * 256) / 4 % 16384, c + 2)
      else .error .truncated
    | 2 =>
      if c + 4 ≤ buf.length then
        .ok (leVal (slice buf c 4) / 4 % 1073741824, c + 4)
      else .error .truncated
    | _ =>
      if c + 8 ≤ buf.length then
        .ok (leVal (slice buf c 8) / 4, c + 8)
      else .error .truncated
  else .error .truncated

/-- utils.ts readUInt8/16/32 and readBigUInt64, unified over the width:
bounds-check, then read w bytes little-endian. -/
def readUIntW (buf : List Nat) (c w : Nat) : Except DErr (Nat × Nat) :=
  if c + w ≤ buf.length then .ok (leVal (slice buf c w), c + w) else .error .truncated

/-- utils.ts readInt8/16/32 and readBigInt64, unified over the width. -/
def readIntW (buf : List Nat) (c w : Nat) : Except DErr (Int × Nat) :=
  if c + w ≤ buf.length then .ok (toSigned w (leVal (slice buf c w)), c + w)
  else .error .truncated

/-- decoder.ts typed-array numeric loops (cases 1/2/4/8 of the signed and
unsigned switches and 4/8 of the float switch): read n fixed-width elements,
building each DVal with mk. -/
def read_fixed_elems (buf : List Nat) (w : Nat) (mk : Nat → DVal) :
    Nat → Nat → Except DErr (List DVal × Nat)
  | 0, c => .ok ([], c)
  | n + 1, c => do
    let (u, c1) ← readUIntW buf c w
    let (vs, c2) ← read_fixed_elems buf w mk n c1
    pure (mk u :: vs, c2)

/-- decoder.ts typed string-array loop: n length-prefixed strings with no
per-element header. -/
def read_str_elems (buf : List Nat) : Nat → Nat → Except DErr (List DVal × Nat)
  | 0, c => .ok ([], c)
  | n + 1, c => do
    let (size, c1) ← read_compressed buf c
    if c1 + size ≤ buf.length then do
      let (vs, c2) ← read_str_elems buf n (c1 + size)
      pure (.dstr (utf8Decode (slice buf c1 size)) :: vs, c2)
    else .error .truncated

/-- JS object property assignment objectData[key] = v: an existing key keeps
its position and gets the new value, a fresh key is appended. -/
def jsInsert (kvs : List (List Nat × DVal)) (k : List Nat) (v : DVal) :
    List (List Nat × DVal) :=
  if kvs.any (fun p => p.1 = k) then
    kvs.map (fun p => if p.1 = k then (k, v) else p)
  else kvs ++ [(k, v)]

/-- The config table of utils.ts: byte counts indexed by the 3-bit width
field. -/
def config : List Nat := [1, 2, 4, 8]

/-- decoder.ts read_value.  The fuel argument decreases at every recursive
call, making the recursion structural; readBeve supplies length + 1, which is
shown sufficient for every successful parse.

Source-fidelity notes:
* the cursor-at-or-past-end check at the top throws Buffer overflow;
* case 1 (number): an unassigned width (config index above 3, or a float
  width of 1 or 2 bytes) falls through every switch arm and the function
  returns undefined, having consumed only the header; num_type 3 takes the
  unsigned branch, as in the source (is_float and is_signed both false);
* case 3 (object): the integer-key arms throw inside the member loop; the
  member loop reads a compressed key length, that many raw bytes as the key,
  then the value;
* case 4 (typed array): num_type 3 selects string (bit 5 set) or boolean
  (bit 5 clear, one byte per element via Boolean(value)); numeric element
  kinds with an unassigned width return an array of undefined holes
  (new Array(N) with no switch arm taken);
* case 7 is the default arm and throws Unknown type. -/
def read_value (buf : List Nat) : Nat → Nat → Except DErr (DVal × Nat)
  | 0, _ => .error .fuel
  | f + 1, c =>
    if c < buf.length then
      let h := byteAt buf c
      let c := c + 1
      match h % 8 with
      | 0 =>
        if (h / 8) % 2 = 1 then .ok (.dbool (h / 16 % 16 != 0), c)
        else .ok (.dnull, c)
      | 1 =>
        let numType := h / 8 % 4
        let idx := h / 32 % 8
        if numType = 0 then
          match config.get? idx with
          | some 4 => do
            let (u, c1) ← readUIntW buf c 4
            pure (.dfloat32 u, c1)
          | some 8 => do
            let (u, c1) ← readUIntW buf c 8
            pure (.dfloat u, c1)
          | _ => .ok (.dundef, c)
        else if numType = 1 then
          match config.get? idx with
          | some 8 => do
            let (i, c1) ← readIntW buf c 8
            pure (.dbigint i, c1)
          | some w => do
            let (i, c1) ← readIntW buf c w
            pure (.dint i, c1)
          | none => .ok (.dundef, c)
        else
          match config.get? idx with
          | some 8 => do
            let (u, c1) ← readUIntW buf c 8
            pure (.dbigint (u : Int), c1)
          | some w => do
            let (u, c1) ← readUIntW buf c w
            pure (.dint (u : Int), c1)
          | none => .ok (.dundef, c)
      | 2 => do
        let (size, c1) ← read_compressed buf c
        if c1 + size ≤ buf.length then
          pure (.dstr (utf8Decode (slice buf c1 size)), c1 + size)
        else .error .truncated
      | 3 =>
        let keyType := h / 8 % 4
        do
          let (n, c1) ← read_compressed buf c
          let r ← (List.replicate n ()).foldlM
            (fun (p : List (List Nat × DVal) × Nat) _ =>
              if keyType = 0 then do
                let (size, c2) ← read_compressed buf p.2
                if c2 + size ≤ buf.length then do
                  let (v, c3) ← read_value buf f (c2 + size)
                  pure (jsInsert p.1 (utf8Decode (slice buf c2 size)) v, c3)
                else .error .truncated
              else .error .intKeys)
            ([], c1)
          pure (.dobj r.1, r.2)
      | 4 =>
        let numType := h / 8 % 4
        let idx := h / 32 % 8
        if numType = 3 then
          if h / 32 % 2 = 1 then do
            let (n, c1) ← read_compressed buf c
            let (vs, c2) ← read_str_elems buf n c1
            pure (.darr vs, c2)
          else do
            let (n, c1) ← read_compressed buf c
            if c1 + n ≤ buf.length then
              pure (.darr ((slice buf c1 n).map (fun b => .dbool (b != 0))), c1 + n)
            else .error .truncated
        else if numType = 0 then do
          let (n, c1) ← read_compressed buf c
          match config.get? idx with
          | some 4 => do
            let (vs, c2) ← read_fixed_elems buf 4 (fun u => .dfloat32 u) n c1
            pure (.darr vs, c2)
          | some 8 => do
            let (vs, c2) ← read_fixed_elems buf 8 (fun u => .dfloat u) n c1
            pure (.darr vs, c2)
          | _ => pure (.darr (List.replicate n .dundef), c1)
        else if numType = 1 then do
          let (n, c1) ← read_compressed buf c
          match config.get? idx with
          | some 8 => do
            let (vs, c2) ← read_fixed_elems buf 8 (fun u => .dbigint (toSigned 8 u)) n c1
            pure (.darr vs, c2)
          | some w => do
            let (vs, c2) ← read_fixed_elems buf w (fun u => .dint (toSigned w u)) n c1
            pure (.darr vs, c2)
          | none => pure (.darr (List.replicate n .dundef), c1)
        else do
          let (n, c1) ← read_compressed buf c
          match config.get? idx with
          | some 8 => do
            let (vs, c2) ← read_fixed_elems buf 8 (fun u => .dbigint (u : Int)) n c1
            pure (.darr vs, c2)
          | some w => do
            let (vs, c2) ← read_fixed_elems buf w (fun u => .dint (u : Int)) n c1
            pure (.darr vs, c2)
          | none => pure (.darr (List.replicate n .dundef), c1)
      | 5 => do
        let (n, c1) ← read_compressed buf c
        let r ← (List.replicate n ()).foldlM
          (fun (p : List DVal × Nat) _ => do
            let (v, c2) ← read_value buf f p.2
            pure (p.1 ++ [v], c2))
          ([], c1)
        pure (.darr r.1, r.2)
      | 6 => do
        let (size, c1) ← read_compressed buf c
        if c1 + size ≤ buf.length then
          pure (.dbin (slice buf c1 size), c1 + size)
        else .error .truncated
      | _ => .error .unknownType
    else .error .truncated

/-- decoder.ts readBeve: decode one value starting at offset 0; trailing bytes
are not inspected. -/
def readBeve (buf : List Nat) : Except DErr DVal :=
  (read_value buf (buf.length + 1) 0).map (fun p => p.1)

/-! ## UUID extension (src/extensions/uuid.ts, src/extensions/types.ts) -/

/-- The decoded BeveUUID record: a version byte and 16 raw bytes. -/
structure BeveUUID where
  version : Nat
  bytes : List Nat
deriving Repr, DecidableEq

/-- uuid.ts decodeUUID: after the extension header has been consumed by the
caller, read one version byte and 16 raw bytes, with no bounds checks and no
consistency check of any kind; the result is returned directly.  JS
buffer.slice clamps to the available bytes, which slice models. -/
def decodeUUID (buf : List Nat) (c : Nat) : BeveUUID × Nat :=
  ({ version := byteAt buf c, bytes := slice buf (c + 1) 16 }, c + 17)

/-- types.ts getUUIDVersion: the high nibble of byte 6 (after a length
check). -/
def getUUIDVersion (bytes : List Nat) : Except Unit Nat :=
  if bytes.length = 16 then .ok (byteAt bytes 6 / 16 % 16) else .error ()

/-- uuid.ts validateUUID: 16 bytes, version in 1..5, and the version field
must equal the version nibble embedded in byte 6. -/
def validateUUID (u : BeveUUID) : Bool :=
  if u.bytes.length ≠ 16 then false
  else if u.version < 1 ∨ 5 < u.version then false
  else if (byteAt u.bytes 6 / 16 % 16) ≠ u.version then false
  else true

/-! ## Derived definitions used by the claim statements -/

/-- Replace the undefined elements of an element list by null (top level
only): the substitution the encoder applies to array elements. -/
def undefToNullL : JList → JList
  | .nil => .nil
  | .cons x xs => .cons (if isUndef x then .vnull else x) (undefToNullL xs)

/-- Total number of members of a member list. -/
def JMembers.count : JMembers → Nat
  | .nil => 0
  | .cons _ _ rest => JMembers.count rest + 1

mutual

/-- The decoded image of an encoder input value: what read_value returns for
the bytes write_value produces.  Numbers keep their magnitude and sign;
integers that the encoder writes in 1, 2 or 4 bytes come back as JS numbers
(dint), integers written in 8 bytes as BigInt (dbigint); float bit patterns,
strings, binary blobs, element order and member order are unchanged. -/
def dOf : JVal → DVal
  | .vundef => .dundef
  | .vnull => .dnull
  | .vbool b => .dbool b
  | .vint n =>
    if n < 0 then (if -2147483648 ≤ n then .dint n else .dbigint n)
    else (if n ≤ 4294967295 then .dint n else .dbigint n)
  | .vfloat bits => .dfloat bits
  | .vstr s => .dstr s
  | .varr xs => .darr (dOfList xs)
  | .vobj kvs => .dobj (dOfMembers kvs)
  | .vbin bs => .dbin bs

/-- dOf over an element list. -/
def dOfList : JList → List DVal
  | .nil => []
  | .cons x xs => dOf x :: dOfList xs

/-- dOf over a member list. -/
def dOfMembers : JMembers → List (List Nat × DVal)
  | .nil => []
  | .cons k v rest => (k, dOf v) :: dOfMembers rest

end

/-- A Unicode scalar value: a code point that is not a surrogate and is in
range; JS strings whose code points are all scalar are exactly those that
TextEncoder maps injectively. -/
def Scalar (c : Nat) : Prop := c < 55296 ∨ (57344 ≤ c ∧ c < 1114112)

mutual

/-- Round-trip-good values: the encoder input trees of claim C1 (no undefined
and no binary blobs), restricted to the ranges on which the codec is exact:
integral numbers in the signed/unsigned 64-bit window, float numbers with a
64-bit pattern, strings of Unicode scalars, sizes below 2 ^ 29 (the
writeCompressed overflow threshold), object keys made of ASCII code points,
and object key lists without duplicates. -/
inductive RTGood : JVal → Prop
  | null : RTGood .vnull
  | bool (b : Bool) : RTGood (.vbool b)
  | int (n : Int) : -9223372036854775808 ≤ n → n < 18446744073709551616 →
      RTGood (.vint n)
  | float (bits : Nat) : bits < 18446744073709551616 → RTGood (.vfloat bits)
  | str (s : List Nat) : (∀ c ∈ s, Scalar c) → (utf8Encode s).length < 536870912 →
      RTGood (.vstr s)
  | arr (xs : JList) : JList.length xs < 536870912 → RTGoodList xs →
      RTGood (.varr xs)
  | obj (kvs : JMembers) : JMembers.count kvs < 536870912 →
      (JMembers.keys kvs).Nodup → RTGoodMembers kvs → RTGood (.vobj kvs)

/-- RTGood over an element list. -/
inductive RTGoodList : JList → Prop
  | nil : RTGoodList .nil
  | cons (x : JVal) (xs : JList) : RTGood x → RTGoodList xs →
      RTGoodList (.cons x xs)

/-- RTGood over a member list: ASCII keys of bounded length, good values. -/
inductive RTGoodMembers : JMembers → Prop
  | nil : RTGoodMembers .nil
  | cons (k : List Nat) (v : JVal) (rest : JMembers) :
      (∀ c ∈ k, c < 128) → k.length < 536870912 →
      RTGood v → RTGoodMembers rest → RTGoodMembers (.cons k v rest)

end

mutual

/-- Encodable values: the trees on which write_value runs to completion
without a validation throw; undefined, binary blobs, arbitrary strings and
arbitrary (even duplicated, non-ASCII) keys are allowed, integral numbers
must lie in the signed/unsigned 64-bit window and every size field
(element count, member count, string byte length, key UTF-16 length, binary
length) must stay below 2 ^ 29, the writeCompressed overflow threshold. -/
inductive EncGood : JVal → Prop
  | undef : EncGood .vundef
  | null : EncGood .vnull
  | bool (b : Bool) : EncGood (.vbool b)
  | int (n : Int) : -9223372036854775808 ≤ n → n < 18446744073709551616 →
      EncGood (.vint n)
  | float (bits : Nat) : EncGood (.vfloat bits)
  | str (s : List Nat) : (utf8Encode s).length < 536870912 → EncGood (.vstr s)
  | arr (xs : JList) : JList.length xs < 536870912 → EncGoodList xs →
      EncGood (.varr xs)
  | obj (kvs : JMembers) : JMembers.count kvs < 536870912 → EncGoodMembers kvs →
      EncGood (.vobj kvs)
  | bin (bs : List Nat) : bs.length < 536870912 → EncGood (.vbin bs)

/-- EncGood over an element list. -/
inductive EncGoodList : JList → Prop
  | nil : EncGoodList .nil
  | cons (x : JVal) (xs : JList) : EncGood x → EncGoodList xs →
      EncGoodList (.cons x xs)

/-- EncGood over a member list. -/
inductive EncGoodMembers : JMembers → Prop
  | nil : EncGoodMembers .nil
  | cons (k : List Nat) (v : JVal) (rest : JMembers) :
      utf16Length k < 536870912 → EncGood v → EncGoodMembers rest →
      EncGoodMembers (.cons k v rest)

end

/-- The smallest of 1/2/4/8 bytes whose signed range contains a negative
integer (the if-chain of the negative branch of write_value). -/
def minSW (n : Int) : Nat :=
  if -128 ≤ n then 1 else if -32768 ≤ n then 2 else if -2147483648 ≤ n then 4 else 8

/-- The smallest of 1/2/4/8 bytes whose unsigned range contains a non-negative
integer (the if-chain of the non-negative branch of write_value). -/
def minUW (n : Int) : Nat :=
  if n ≤ 255 then 1 else if n ≤ 65535 then 2 else if n ≤ 4294967295 then 4 else 8

/-- The 3-bit byte-count index of the header for a width of 1/2/4/8 bytes
(the config table read backwards). -/
def widthIndex : Nat → Nat
  | 1 => 0
  | 2 => 1
  | 4 => 2
  | _ => 3

/-- The signed two's-complement range of a w-byte integer: the fitting
criterion of the width rule for negative numbers. -/
def fitsS (w : Nat) (n : Int) : Prop :=
  -(2 ^ (8 * w - 1)) ≤ n ∧ n < 2 ^ (8 * w - 1)

/-- The unsigned range of a w-byte integer: the fitting criterion of the
width rule for non-negative numbers. -/
def fitsU (w : Nat) (n : Int) : Prop :=
  0 ≤ n ∧ n < 2 ^ (8 * w)

end Beve

namespace Beve

/-! ## Supporting lemmas -/

theorem byteAt_cons_zero (b : Nat) (rest : List Nat) : byteAt (b :: rest) 0 = b := rfl

theorem undefToNullL_length : ∀ ys : JList, JList.length (undefToNullL ys) = JList.length ys
  | .nil => rfl
  | .cons x xs => by simp [undefToNullL, JList.length, undefToNullL_length xs]

theorem write_list_undefToNull :
    ∀ ys : JList, write_list (undefToNullL ys) = write_list ys
  | .nil => rfl
  | .cons x xs => by
    cases x <;>
      simp [undefToNullL, isUndef, write_list, write_value, write_list_undefToNull xs]

theorem keptCount_filterDefined :
    ∀ ms : JMembers, JMembers.keptCount (JMembers.filterDefined ms) = JMembers.keptCount ms
  | .nil => rfl
  | .cons k v rest => by
    cases v <;>
      simp [JMembers.filterDefined, JMembers.keptCount, isUndef, keptCount_filterDefined rest]

theorem write_members_filterDefined :
    ∀ ms : JMembers, write_members (JMembers.filterDefined ms) = write_members ms
  | .nil => rfl
  | .cons k v rest => by
    cases v <;>
      simp [JMembers.filterDefined, write_members, isUndef, write_members_filterDefined rest]

theorem leBytes_length : ∀ w n : Nat, (leBytes w n).length = w
  | 0, _ => rfl
  | w + 1, n => by simp [leBytes, leBytes_length w]

theorem leVal_leBytes : ∀ w n : Nat, leVal (leBytes w n) = n % 256 ^ w
  | 0, n => by simp [leBytes, leVal, Nat.mod_one]
  | w + 1, n => by
    have hmul : (256 : Nat) ^ (w + 1) = 256 * 256 ^ w := by ring
    simp [leBytes, leVal, leVal_leBytes w (n / 256), hmul, Nat.mod_mul]

theorem leVal_append : ∀ a b : List Nat, leVal (a ++ b) = leVal a + 256 ^ a.length * leVal b
  | [], b => by simp [leVal]
  | x :: a, b => by
    simp [leVal, leVal_append a b]
    ring

theorem lor_four_mul_two (k : Nat) : Nat.lor (4 * k) 2 = 4 * k + 2 := by
  show (4 * k) ||| 2 = 4 * k + 2
  have h4 : 4 * k = Nat.bit false (Nat.bit false k) := by simp [Nat.bit]; ring
  have h2 : (2 : Nat) = Nat.bit false (Nat.bit true 0) := by simp [Nat.bit]
  rw [h4, h2, Nat.lor_bit, Nat.lor_bit]
  simp [Nat.bit]
  ring

theorem length_triple (pre l rest : List Nat) :
    (pre ++ l ++ rest).length = pre.length + l.length + rest.length := by
  simp
  omega

theorem slice_mid (pre l rest : List Nat) (i w : Nat) (h : i + w ≤ l.length) :
    slice (pre ++ l ++ rest) (pre.length + i) w = slice l i w := by
  unfold slice
  rw [List.append_assoc, List.drop_append i, List.drop_append_of_le_length (by omega),
    List.take_append_of_le_length (by simp; omega)]

theorem byteAt_mid (pre l rest : List Nat) (i : Nat) (h : i < l.length) :
    byteAt (pre ++ l ++ rest) (pre.length + i) = byteAt l i := by
  unfold byteAt
  rw [List.append_assoc, List.getD_append_right pre (l ++ rest) 0 (pre.length + i) (by omega)]
  have hsub : pre.length + i - pre.length = i := by omega
  rw [hsub, List.getD_append l rest 0 i h]

theorem append_uint8_ok (v : Int) (h0 : 0 ≤ v) (h1 : v ≤ 255) :
    append_uint8 v = .ok [v.toNat] := by
  simp [append_uint8, h0, h1]

theorem append_uint16_ok (v : Int) (h0 : 0 ≤ v) (h1 : v ≤ 65535) :
    append_uint16 v = .ok (leBytes 2 v.toNat) := by
  simp [append_uint16, h0, h1]

theorem append_uint32_ok (v : Int) (h0 : 0 ≤ v) (h1 : v ≤ 4294967295) :
    append_uint32 v = .ok (leBytes 4 v.toNat) := by
  simp [append_uint32, h0, h1]

theorem append_uint64_ok (v : Int) (h0 : 0 ≤ v) (h1 : v ≤ 18446744073709551616) :
    append_uint64 v =
      .ok (leBytes 4 (v.toNat % 4294967296) ++ leBytes 4 (v.toNat / 4294967296 % 4294967296)) := by
  simp [append_uint64, h0, h1]

theorem dropLast_leBytes_two (X : Nat) : (leBytes 2 X).dropLast = [X % 256] := rfl

theorem dropLast_leBytes_four (X : Nat) :
    (leBytes 4 X).dropLast = [X % 256, X / 256 % 256, X / 256 / 256 % 256] := rfl

theorem rc_oob (buf : List Nat) (c : Nat) (hc : ¬ c < buf.length) :
    read_compressed buf c = .error .truncated := by
  simp only [read_compressed, if_neg hc]

theorem rc_tag0 (buf : List Nat) (c : Nat) (hc : c < buf.length) (h4 : byteAt buf c % 4 = 0) :
    read_compressed buf c = .ok (byteAt buf c / 4, c + 1) := by
  simp only [read_compressed, if_pos hc]
  rw [h4]

theorem rc_tag1 (buf : List Nat) (c : Nat) (hc : c < buf.length) (h4 : byteAt buf c % 4 = 1)
    (hck : c + 2 ≤ buf.length) :
    read_compressed buf c =
      .ok ((byteAt buf c + byteAt buf (c + 1) * 256) / 4 % 16384, c + 2) := by
  simp only [read_compressed, if_pos hc]
  rw [h4]
  simp only [if_pos hck]

theorem rc_tag1_trunc (buf : List Nat) (c : Nat) (hc : c < buf.length)
    (h4 : byteAt buf c % 4 = 1) (hck : ¬ c + 2 ≤ buf.length) :
    read_compressed buf c = .error .truncated := by
  simp only [read_compressed, if_pos hc]
  rw [h4]
  simp only [if_neg hck]

theorem rc_tag2 (buf : List Nat) (c : Nat) (hc : c < buf.length) (h4 : byteAt buf c % 4 = 2)
    (hck : c + 4 ≤ buf.length) :
    read_compressed buf c = .ok (leVal (slice buf c 4) / 4 % 1073741824, c + 4) := by
  simp only [read_compressed, if_pos hc]
  rw [h4]
  simp only [if_pos hck]

theorem rc_tag2_trunc (buf : List Nat) (c : Nat) (hc : c < buf.length)
    (h4 : byteAt buf c % 4 = 2) (hck : ¬ c + 4 ≤ buf.length) :
    read_compressed buf c = .error .truncated := by
  simp only [read_compressed, if_pos hc]
  rw [h4]
  simp only [if_neg hck]

theorem rc_tag3 (buf : List Nat) (c : Nat) (hc : c < buf.length) (h4 : byteAt buf c % 4 = 3)
    (hck : c + 8 ≤ buf.length) :
    read_compressed buf c = .ok (leVal (slice buf c 8) / 4, c + 8) := by
  simp only [read_compressed, if_pos hc]
  rw [h4]
  simp only [if_pos hck]

theorem rc_tag3_trunc (buf : List Nat) (c : Nat) (hc : c < buf.length)
    (h4 : byteAt buf c % 4 = 3) (hck : ¬ c + 8 ≤ buf.length) :
    read_compressed buf c = .error .truncated := by
  simp only [read_compressed, if_pos hc]
  rw [h4]
  simp only [if_neg hck]

theorem utf8EncodeChar_ascii (c : Nat) (h : c < 128) : utf8EncodeChar c = [c] := by
  simp [utf8EncodeChar, h]

theorem ascii_utf8Encode : ∀ k : List Nat, (∀ c ∈ k, c < 128) → utf8Encode k = k
  | [], _ => rfl
  | c :: k, h => by
    have hc : c < 128 := h c (by simp)
    have hk : ∀ x ∈ k, x < 128 := fun x hx => h x (by simp [hx])
    simp [utf8Encode] at ascii_utf8Encode k hk ⊢
    simp [utf8EncodeChar_ascii c hc, ascii_utf8Encode k hk]

theorem ascii_utf16Length : ∀ k : List Nat, (∀ c ∈ k, c < 128) → utf16Length k = k.length
  | [], _ => rfl
  | c :: k, h => by
    have hc : c < 65536 := by
      have := h c (by simp)
      omega
    have hk : ∀ x ∈ k, x < 128 := fun x hx => h x (by simp [hx])
    simp [utf16Length, hc] at ascii_utf16Length k hk ⊢
    simp [ascii_utf16Length k hk]
    omega

theorem utf8Encode_length_ge : ∀ s : List Nat, s.length ≤ (utf8Encode s).length
  | [] => by simp [utf8Encode]
  | c :: s => by
    have ih := utf8Encode_length_ge s
    have hch : 1 ≤ (utf8EncodeChar c).length := by
      unfold utf8EncodeChar
      split_ifs <;> simp
    simp only [utf8Encode, List.flatMap_cons, List.length_append, List.length_cons]
    have : utf8Encode s = s.flatMap utf8EncodeChar := rfl
    rw [this] at ih
    omega

theorem utf8DecodeF_encodeChar (c : Nat) (hs : Scalar c) (f : Nat) (t : List Nat) :
    utf8DecodeF (f + 1) (utf8EncodeChar c ++ t) = c :: utf8DecodeF f t := by
  by_cases h1 : c < 128
  · rw [utf8EncodeChar_ascii c h1]
    simp [utf8DecodeF, h1]
  · by_cases h2 : c < 2048
    · have henc : utf8EncodeChar c = [192 + c / 64, 128 + c % 64] := by
        simp [utf8EncodeChar, h1, h2]
      have hA : ¬ (192 + c / 64 < 128) := by omega
      have hB : ¬ (192 + c / 64 < 194) := by omega
      have hC : 192 + c / 64 < 224 := by omega
      have hD : isCont (128 + c % 64) = true := by
        simp [isCont]
        omega
      have hch : (192 + c / 64 - 192) * 64 + (128 + c % 64 - 128) = c := by omega
      rw [henc]
      simp only [List.append_eq, List.cons_append, List.singleton_append, List.nil_append, utf8DecodeF,
        if_neg hA, if_neg hB, if_pos hC, hD, if_true, hch]
    · by_cases h3 : c < 65536
      · have hns : ¬ (55296 ≤ c ∧ c < 57344) := by
          rcases hs with h | h <;> omega
        have henc : utf8EncodeChar c = [224 + c / 4096, 128 + c / 64 % 64, 128 + c % 64] := by
          simp only [utf8EncodeChar, if_neg h1, if_neg (by omega : ¬ c < 2048), if_neg hns,
            if_pos h3]
        have hA : ¬ (224 + c / 4096 < 128) := by omega
        have hB : ¬ (224 + c / 4096 < 194) := by omega
        have hC : ¬ (224 + c / 4096 < 224) := by omega
        have hD : 224 + c / 4096 < 240 := by omega
        have hrow : cont3Check (224 + c / 4096) (128 + c / 64 % 64) = true := by
          unfold cont3Check
          by_cases hE0 : 224 + c / 4096 = 224
          · rw [if_pos hE0]
            simp
            omega
          · rw [if_neg hE0]
            by_cases hED : 224 + c / 4096 = 237
            · rw [if_pos hED]
              have hcu : c < 55296 := by
                rcases hs with h | h <;> omega
              simp
              omega
            · rw [if_neg hED]
              simp [isCont]
              omega
        have hG : isCont (128 + c % 64) = true := by
          simp [isCont]
          omega
        have hch : (224 + c / 4096 - 224) * 4096 + (128 + c / 64 % 64 - 128) * 64 +
            (128 + c % 64 - 128) = c := by omega
        rw [henc]
        simp only [List.append_eq, List.cons_append, List.singleton_append, List.nil_append, utf8DecodeF,
          if_neg hA, if_neg hB, if_neg hC, if_pos hD, hrow, if_true, hG, hch]
      · have h4 : c < 1114112 := by
          rcases hs with h | h <;> omega
        have henc : utf8EncodeChar c =
            [240 + c / 262144, 128 + c / 4096 % 64, 128 + c / 64 % 64, 128 + c % 64] := by
          simp only [utf8EncodeChar, if_neg h1, if_neg (by omega : ¬ c < 2048),
            if_neg (by omega : ¬ (55296 ≤ c ∧ c < 57344)), if_neg (by omega : ¬ c < 65536)]
        have hA : ¬ (240 + c / 262144 < 128) := by omega
        have hB : ¬ (240 + c / 262144 < 194) := by omega
        have hC : ¬ (240 + c / 262144 < 224) := by omega
        have hD : ¬ (240 + c / 262144 < 240) := by omega
        have hE : 240 + c / 262144 < 245 := by omega
        have hrow : cont4Check (240 + c / 262144) (128 + c / 4096 % 64) = true := by
          unfold cont4Check
          by_cases hF0 : 240 + c / 262144 = 240
          · rw [if_pos hF0]
            simp
            omega
          · rw [if_neg hF0]
            by_cases hF4 : 240 + c / 262144 = 244
            · rw [if_pos hF4]
              simp
              omega
            · rw [if_neg hF4]
              simp [isCont]
              omega
        have hG : isCont (128 + c / 64 % 64) = true := by
          simp [isCont]
          omega
        have hH : isCont (128 + c % 64) = true := by
          simp [isCont]
          omega
        have hch : (240 + c / 262144 - 240) * 262144 + (128 + c / 4096 % 64 - 128) * 4096 +
            (128 + c / 64 % 64 - 128) * 64 + (128 + c % 64 - 128) = c := by omega
        rw [henc]
        simp only [List.append_eq, List.cons_append, List.singleton_append, List.nil_append, utf8DecodeF,
          if_neg hA, if_neg hB, if_neg hC, if_neg hD, if_pos hE, hrow, if_true, hG, hH, hch]

theorem utf8DecodeF_encode : ∀ (s : List Nat) (f : Nat), (∀ c ∈ s, Scalar c) →
    s.length < f → utf8DecodeF f (utf8Encode s) = s
  | [], f, _, hf => by
    rcases f with _ | f
    · omega
    · simp [utf8Encode, utf8DecodeF]
  | c :: s, f, hsc, hf => by
    rcases f with _ | f
    · omega
    · have hc : Scalar c := hsc c (by simp)
      have hs : ∀ x ∈ s, Scalar x := fun x hx => hsc x (by simp [hx])
      have henc : utf8Encode (c :: s) = utf8EncodeChar c ++ utf8Encode s := by
        simp [utf8Encode]
      rw [henc, utf8DecodeF_encodeChar c hc f (utf8Encode s),
        utf8DecodeF_encode s f hs (by simp at hf; omega)]

/-- TextDecoder inverts TextEncoder on strings of Unicode scalar values. -/
theorem utf8Decode_encode (s : List Nat) (h : ∀ c ∈ s, Scalar c) :
    utf8Decode (utf8Encode s) = s := by
  unfold utf8Decode
  exact utf8DecodeF_encode s _ h (by have := utf8Encode_length_ge s; omega)

/-- TextDecoder is the identity on ASCII byte strings, at any sufficient
fuel. -/
theorem utf8DecodeF_ascii : ∀ (k : List Nat) (f : Nat), (∀ c ∈ k, c < 128) →
    k.length < f → utf8DecodeF f k = k
  | [], f, _, hf => by
    rcases f with _ | f
    · omega
    · simp [utf8DecodeF]
  | c :: k, f, hk, hf => by
    rcases f with _ | f
    · omega
    · have hc : c < 128 := hk c (by simp)
      have hrest : ∀ x ∈ k, x < 128 := fun x hx => hk x (by simp [hx])
      simp only [utf8DecodeF, if_pos hc]
      rw [utf8DecodeF_ascii k f hrest (by simp at hf; omega)]

/-- TextDecoder is the identity on ASCII byte strings. -/
theorem utf8Decode_ascii (k : List Nat) (h : ∀ c ∈ k, c < 128) : utf8Decode k = k :=
  utf8DecodeF_ascii k _ h (by omega)

/-- The full specification of writeCompressed on the sizes the encoder can
actually emit (below 2 ^ 29, the JS shift-overflow threshold): the encoding
succeeds, takes 1, 2 or 4 bytes, read_compressed recovers exactly the size
and advances past it wherever the encoding sits in a larger buffer, and
read_compressed fails with a truncation error if the last byte is missing
and nothing follows. -/
theorem wc_spec (n : Nat) (h : n < 536870912) :
    ∃ cb : List Nat, writeCompressed n = .ok cb ∧ 0 < cb.length ∧ cb.length ≤ 4 ∧
      (∀ pre rest : List Nat,
        read_compressed (pre ++ cb ++ rest) pre.length = .ok (n, pre.length + cb.length)) ∧
      (∀ pre : List Nat,
        read_compressed (pre ++ cb.dropLast) pre.length = .error .truncated) := by
  by_cases h64 : n < 64
  · refine ⟨[n * 4], ?_, by simp, by simp, ?_, ?_⟩
    · have ht : ((n : Int) * 4).toNat = n * 4 := by omega
      simp [writeCompressed, h64, append_uint8_ok ((n : Int) * 4) (by omega) (by omega), ht]
    · intro pre rest
      have hb : byteAt (pre ++ [n * 4] ++ rest) (pre.length + 0) = byteAt [n * 4] 0 :=
        byteAt_mid pre [n * 4] rest 0 (by simp)
      simp only [Nat.add_zero] at hb
      have hbv : byteAt (pre ++ [n * 4] ++ rest) pre.length = n * 4 := hb
      have hc : pre.length < (pre ++ [n * 4] ++ rest).length := by
        rw [length_triple]
        simp only [List.length_cons, List.length_nil]
        omega
      rw [rc_tag0 _ _ hc (by rw [hbv]; omega), hbv]
      have hval : n * 4 / 4 = n := by omega
      rw [hval]
      simp
    · intro pre
      have hc : ¬ pre.length < (pre ++ ([n * 4] : List Nat).dropLast).length := by simp
      exact rc_oob _ _ hc
  · by_cases h14 : n < 16384
    · refine ⟨leBytes 2 (n * 4 + 1), ?_, by simp [leBytes_length], by simp [leBytes_length],
        ?_, ?_⟩
      · have ht : ((n : Int) * 4 + 1).toNat = n * 4 + 1 := by omega
        simp [writeCompressed, h64, h14,
          append_uint16_ok ((n : Int) * 4 + 1) (by omega) (by omega), ht]
      · intro pre rest
        have hlen2 : (leBytes 2 (n * 4 + 1)).length = 2 := leBytes_length 2 _
        have hb0 : byteAt (pre ++ leBytes 2 (n * 4 + 1) ++ rest) (pre.length + 0) =
            byteAt (leBytes 2 (n * 4 + 1)) 0 :=
          byteAt_mid pre _ rest 0 (by omega)
        simp only [Nat.add_zero] at hb0
        have hb1 : byteAt (pre ++ leBytes 2 (n * 4 + 1) ++ rest) (pre.length + 1) =
            byteAt (leBytes 2 (n * 4 + 1)) 1 :=
          byteAt_mid pre _ rest 1 (by omega)
        have hv0 : byteAt (pre ++ leBytes 2 (n * 4 + 1) ++ rest) pre.length =
            (n * 4 + 1) % 256 := hb0
        have hv1 : byteAt (pre ++ leBytes 2 (n * 4 + 1) ++ rest) (pre.length + 1) =
            (n * 4 + 1) / 256 % 256 := hb1
        have hc : pre.length < (pre ++ leBytes 2 (n * 4 + 1) ++ rest).length := by
          rw [length_triple, hlen2]
          omega
        have hck : pre.length + 2 ≤ (pre ++ leBytes 2 (n * 4 + 1) ++ rest).length := by
          rw [length_triple, hlen2]
          omega
        rw [rc_tag1 _ _ hc (by rw [hv0]; omega) hck, hv0, hv1, hlen2]
        have : ((n * 4 + 1) % 256 + (n * 4 + 1) / 256 % 256 * 256) / 4 % 16384 = n := by
          omega
        rw [this]
      · intro pre
        rw [dropLast_leBytes_two]
        have hb0 : byteAt (pre ++ [(n * 4 + 1) % 256] ++ ([] : List Nat)) (pre.length + 0) =
            byteAt [(n * 4 + 1) % 256] 0 := byteAt_mid pre _ [] 0 (by simp)
        simp only [Nat.add_zero, List.append_nil] at hb0
        have hv0 : byteAt (pre ++ [(n * 4 + 1) % 256]) pre.length = (n * 4 + 1) % 256 := hb0
        have hc : pre.length < (pre ++ [(n * 4 + 1) % 256]).length := by simp
        exact rc_tag1_trunc _ _ hc (by rw [hv0]; omega) (by simp)
    · have hw : writeCompressed n = .ok (leBytes 4 (n * 4 + 2)) := by
        have ht : toInt32 ((n : Int) * 4) = (n : Int) * 4 := by
          unfold toInt32
          have hm : (n : Int) * 4 % 4294967296 = (n : Int) * 4 := by omega
          have hlt : (n : Int) * 4 < 2147483648 := by omega
          simp only [hm, if_pos hlt]
        have hor : or32 ((n : Int) * 4) 2 = (n : Int) * 4 + 2 := by
          unfold or32 toUint32 toInt32
          have ha : ((n : Int) * 4 % 4294967296).toNat = 4 * n := by omega
          have hb : ((2 : Int) % 4294967296).toNat = 2 := rfl
          rw [ha, hb, lor_four_mul_two]
          have hcst : ((4 * n + 2 : Nat) : Int) % 4294967296 = (n : Int) * 4 + 2 := by omega
          rw [hcst]
          have hlt : (n : Int) * 4 + 2 < 2147483648 := by omega
          simp only [if_pos hlt]
        have ht2 : ((n : Int) * 4 + 2).toNat = n * 4 + 2 := by omega
        have h30 : n < 1073741824 := by omega
        simp [writeCompressed, h64, h14, h30, ht, hor,
          append_uint32_ok ((n : Int) * 4 + 2) (by omega) (by omega), ht2]
      refine ⟨leBytes 4 (n * 4 + 2), hw, by simp [leBytes_length], by simp [leBytes_length],
        ?_, ?_⟩
      · intro pre rest
        have hlen4 : (leBytes 4 (n * 4 + 2)).length = 4 := leBytes_length 4 _
        have hb0 : byteAt (pre ++ leBytes 4 (n * 4 + 2) ++ rest) (pre.length + 0) =
            byteAt (leBytes 4 (n * 4 + 2)) 0 :=
          byteAt_mid pre _ rest 0 (by omega)
        simp only [Nat.add_zero] at hb0
        have hv0 : byteAt (pre ++ leBytes 4 (n * 4 + 2) ++ rest) pre.length =
            (n * 4 + 2) % 256 := hb0
        have hc : pre.length < (pre ++ leBytes 4 (n * 4 + 2) ++ rest).length := by
          rw [length_triple, hlen4]
          omega
        have hck : pre.length + 4 ≤ (pre ++ leBytes 4 (n * 4 + 2) ++ rest).length := by
          rw [length_triple, hlen4]
          omega
        have hsl : slice (pre ++ leBytes 4 (n * 4 + 2) ++ rest) (pre.length + 0) 4 =
            slice (leBytes 4 (n * 4 + 2)) 0 4 :=
          slice_mid pre _ rest 0 4 (by omega)
        simp only [Nat.add_zero] at hsl
        have hsl2 : slice (leBytes 4 (n * 4 + 2)) 0 4 = leBytes 4 (n * 4 + 2) := by
          unfold slice
          simp [List.take_of_length_le, hlen4]
        have hlv : leVal (slice (pre ++ leBytes 4 (n * 4 + 2) ++ rest) pre.length 4) =
            n * 4 + 2 := by
          rw [hsl, hsl2, leVal_leBytes]
          have h256 : (256 : Nat) ^ 4 = 4294967296 := by norm_num
          rw [h256]
          omega
        rw [rc_tag2 _ _ hc (by rw [hv0]; omega) hck, hlv, hlen4]
        have hval : (n * 4 + 2) / 4 % 1073741824 = n := by omega
        rw [hval]
      · intro pre
        rw [dropLast_leBytes_four]
        have hb0 : byteAt (pre ++ [(n * 4 + 2) % 256, (n * 4 + 2) / 256 % 256,
            (n * 4 + 2) / 256 / 256 % 256] ++ ([] : List Nat)) (pre.length + 0) =
            (n * 4 + 2) % 256 := byteAt_mid pre _ [] 0 (by simp)
        simp only [Nat.add_zero, List.append_nil] at hb0
        have hc : pre.length < (pre ++ [(n * 4 + 2) % 256, (n * 4 + 2) / 256 % 256,
            (n * 4 + 2) / 256 / 256 % 256]).length := by simp
        exact rc_tag2_trunc _ _ hc (by rw [hb0]; omega) (by simp)

theorem jsInsert_fresh (acc : List (List Nat × DVal)) (k : List Nat) (v : DVal)
    (h : ∀ p ∈ acc, p.1 ≠ k) : jsInsert acc k v = acc ++ [(k, v)] := by
  unfold jsInsert
  rw [if_neg]
  simp only [List.any_eq_true, decide_eq_true_eq, not_exists]
  intro p
  by_cases hp : p ∈ acc
  · simp [hp, h p hp]
  · simp [hp]

theorem rtgood_not_undef (v : JVal) (h : RTGood v) : isUndef v = false := by
  cases h <;> rfl

theorem keptCount_count : ∀ kvs : JMembers, RTGoodMembers kvs →
    JMembers.keptCount kvs = JMembers.count kvs
  | .nil, _ => rfl
  | .cons k v rest, h => by
    rcases h with _ | ⟨_, _, _, hasc, hlen, hv, hrest⟩
    simp [JMembers.keptCount, JMembers.count, rtgood_not_undef v hv,
      keptCount_count rest hrest]
    omega

theorem byteAt_mid0 (pre : List Nat) (b : Nat) (t rest : List Nat) :
    byteAt (pre ++ (b :: t) ++ rest) pre.length = b := by
  have := byteAt_mid pre (b :: t) rest 0 (by simp)
  simpa using this

theorem slice_mid1 (pre : List Nat) (b : Nat) (payload rest : List Nat) :
    slice (pre ++ (b :: payload) ++ rest) (pre.length + 1) payload.length = payload := by
  have h := slice_mid pre (b :: payload) rest 1 payload.length (by simp; omega)
  rw [h]
  unfold slice
  simp

theorem readUIntW_at (buf : List Nat) (c w : Nat) (hck : c + w ≤ buf.length) :
    readUIntW buf c w = .ok (leVal (slice buf c w), c + w) := by
  simp [readUIntW, hck]

theorem readIntW_at (buf : List Nat) (c w : Nat) (hck : c + w ≤ buf.length) :
    readIntW buf c w = .ok (toSigned w (leVal (slice buf c w)), c + w) := by
  simp [readIntW, hck]

theorem toSigned1_twos (n : Int) (hlo : -128 ≤ n) (hhi : n < 128) :
    toSigned 1 ((n % 256).toNat % 256 ^ 1) = n := by
  unfold toSigned
  norm_num
  omega

theorem toSigned2_twos (n : Int) (hlo : -32768 ≤ n) (hhi : n < 32768) :
    toSigned 2 ((n % 65536).toNat % 256 ^ 2) = n := by
  unfold toSigned
  norm_num
  omega

theorem toSigned4_twos (n : Int) (hlo : -2147483648 ≤ n) (hhi : n < 2147483648) :
    toSigned 4 ((n % 4294967296).toNat % 256 ^ 4) = n := by
  unfold toSigned
  norm_num
  omega

theorem toSigned8_twos (n : Int) (hlo : -9223372036854775808 ≤ n)
    (hhi : n < 9223372036854775808) :
    toSigned 8 ((n % 18446744073709551616).toNat % 256 ^ 8) = n := by
  unfold toSigned
  norm_num
  omega

theorem except_bind_ok {α β ε : Type} (a : α) (f : α → Except ε β) :
    (Except.ok a >>= f) = f a := rfl

theorem except_bind_err {α β ε : Type} (e : ε) (f : α → Except ε β) :
    ((Except.error e : Except ε α) >>= f) = .error e := rfl

theorem except_pure {α ε : Type} (a : α) : (pure a : Except ε α) = .ok a := rfl

theorem except_map_ok {α β ε : Type} (f : α → β) (a : α) :
    (f <$> (Except.ok a : Except ε α)) = .ok (f a) := rfl

mutual

/-- Round trip, value level: on RTGood values the encoder succeeds with a
nonempty byte string, and wherever that byte string sits inside a larger
buffer, read_value (with fuel above the byte length) decodes exactly it to
the dOf image, leaving the cursor right past it. -/
theorem write_read_val : ∀ v : JVal, RTGood v →
    ∃ bs : List Nat, write_value v = .ok bs ∧ bs ≠ [] ∧
      ∀ (pre rest : List Nat) (f : Nat), bs.length < f →
        read_value (pre ++ bs ++ rest) f pre.length = .ok (dOf v, pre.length + bs.length)
  | .vnull, _ => by
    refine ⟨[0], rfl, by simp, fun pre rest f hf => ?_⟩
    rcases f with _ | f
    · omega
    · have hc : pre.length < (pre ++ [0] ++ rest).length := by
        rw [length_triple]
        simp
        omega
      have hb : byteAt (pre ++ [0] ++ rest) pre.length = 0 := byteAt_mid0 pre 0 [] rest
      simp only [read_value, if_pos hc, hb]
      norm_num [dOf]
  | .vbool b, _ => by
    refine ⟨[if b then 24 else 8], by cases b <;> rfl, by cases b <;> simp,
      fun pre rest f hf => ?_⟩
    rcases f with _ | f
    · omega
    · cases b
      · have hc : pre.length < (pre ++ [8] ++ rest).length := by
          rw [length_triple]
          simp
          omega
        have hb : byteAt (pre ++ [8] ++ rest) pre.length = 8 := byteAt_mid0 pre 8 [] rest
        simp only [if_false, Bool.false_eq_true, read_value, if_pos hc, hb]
        norm_num [dOf]
      · have hc : pre.length < (pre ++ [24] ++ rest).length := by
          rw [length_triple]
          simp
          omega
        have hb : byteAt (pre ++ [24] ++ rest) pre.length = 24 := byteAt_mid0 pre 24 [] rest
        simp only [if_true, read_value, if_pos hc, hb]
        norm_num [dOf]
  | .vint n, hG => by
    have hbounds : -9223372036854775808 ≤ n ∧ n < 18446744073709551616 := by
      rcases hG with _ | _ | ⟨_, hlo, hhi⟩ | _ | _ | _ | _
      exact ⟨hlo, hhi⟩
    obtain ⟨hlo, hhi⟩ := hbounds
    by_cases hneg : n < 0
    · by_cases h8 : -128 ≤ n
      · refine ⟨9 :: append_int8 n, by simp [write_value, hneg, h8], by simp,
          fun pre rest f hf => ?_⟩
        rcases f with _ | f
        · omega
        · have hplen : (append_int8 n).length = 1 := leBytes_length 1 _
          have hc : pre.length < (pre ++ (9 :: append_int8 n) ++ rest).length := by
            rw [length_triple]
            simp
            omega
          have hb : byteAt (pre ++ (9 :: append_int8 n) ++ rest) pre.length = 9 :=
            byteAt_mid0 pre 9 _ rest
          have hck : pre.length + 1 + 1 ≤ (pre ++ (9 :: append_int8 n) ++ rest).length := by
            rw [length_triple]
            simp [hplen]
          have hsl : slice (pre ++ (9 :: append_int8 n) ++ rest) (pre.length + 1) 1 =
              append_int8 n := by
            have := slice_mid1 pre 9 (append_int8 n) rest
            rwa [hplen] at this
          have hval : toSigned 1 (leVal (append_int8 n)) = n := by
            unfold append_int8
            rw [leVal_leBytes]
            exact toSigned1_twos n h8 (by omega)
          have hd : dOf (.vint n) = .dint n := by
            simp [dOf, hneg]
            omega
          simp only [read_value, if_pos hc, hb]
          norm_num [config]
          simp only [List.cons_append, List.append_assoc] at hck hsl
          rw [readIntW_at _ _ 1 hck, hsl, hval, except_map_ok, hd, hplen]
      · by_cases h16 : -32768 ≤ n
        · refine ⟨41 :: append_int16 n, by simp [write_value, hneg, h8, h16], by simp,
            fun pre rest f hf => ?_⟩
          rcases f with _ | f
          · omega
          · have hplen : (append_int16 n).length = 2 := leBytes_length 2 _
            have hc : pre.length < (pre ++ (41 :: append_int16 n) ++ rest).length := by
              rw [length_triple]
              simp
              omega
            have hb : byteAt (pre ++ (41 :: append_int16 n) ++ rest) pre.length = 41 :=
              byteAt_mid0 pre 41 _ rest
            have hck : pre.length + 1 + 2 ≤
                (pre ++ (41 :: append_int16 n) ++ rest).length := by
              rw [length_triple]
              simp [hplen]
            have hsl : slice (pre ++ (41 :: append_int16 n) ++ rest) (pre.length + 1) 2 =
                append_int16 n := by
              have := slice_mid1 pre 41 (append_int16 n) rest
              rwa [hplen] at this
            have hval : toSigned 2 (leVal (append_int16 n)) = n := by
              unfold append_int16
              rw [leVal_leBytes]
              exact toSigned2_twos n h16 (by omega)
            have hd : dOf (.vint n) = .dint n := by
              simp [dOf, hneg]
              omega
            simp only [read_value, if_pos hc, hb]
            norm_num [config]
            simp only [List.cons_append, List.append_assoc] at hck hsl
            rw [readIntW_at _ _ 2 hck, hsl, hval, except_map_ok, hd, hplen]
        · by_cases h32 : -2147483648 ≤ n
          · refine ⟨73 :: append_int32 n, by simp [write_value, hneg, h8, h16, h32], by simp,
              fun pre rest f hf => ?_⟩
            rcases f with _ | f
            · omega
            · have hplen : (append_int32 n).length = 4 := leBytes_length 4 _
              have hc : pre.length < (pre ++ (73 :: append_int32 n) ++ rest).length := by
                rw [length_triple]
                simp
                omega
              have hb : byteAt (pre ++ (73 :: append_int32 n) ++ rest) pre.length = 73 :=
                byteAt_mid0 pre 73 _ rest
              have hck : pre.length + 1 + 4 ≤
                  (pre ++ (73 :: append_int32 n) ++ rest).length := by
                rw [length_triple]
                simp [hplen]
              have hsl : slice (pre ++ (73 :: append_int32 n) ++ rest) (pre.length + 1) 4 =
                  append_int32 n := by
                have := slice_mid1 pre 73 (append_int32 n) rest
                rwa [hplen] at this
              have hval : toSigned 4 (leVal (append_int32 n)) = n := by
                unfold append_int32
                rw [leVal_leBytes]
                exact toSigned4_twos n h32 (by omega)
              have hd : dOf (.vint n) = .dint n := by
                simp [dOf, hneg]
                omega
              simp only [read_value, if_pos hc, hb]
              norm_num [config]
              simp only [List.cons_append, List.append_assoc] at hck hsl
              rw [readIntW_at _ _ 4 hck, hsl, hval, except_map_ok, hd, hplen]
          · refine ⟨105 :: append_int64 n, by simp [write_value, hneg, h8, h16, h32], by simp,
              fun pre rest f hf => ?_⟩
            rcases f with _ | f
            · omega
            · have hplen : (append_int64 n).length = 8 := leBytes_length 8 _
              have hc : pre.length < (pre ++ (105 :: append_int64 n) ++ rest).length := by
                rw [length_triple]
                simp
                omega
              have hb : byteAt (pre ++ (105 :: append_int64 n) ++ rest) pre.length = 105 :=
                byteAt_mid0 pre 105 _ rest
              have hck : pre.length + 1 + 8 ≤
                  (pre ++ (105 :: append_int64 n) ++ rest).length := by
                rw [length_triple]
                simp [hplen]
              have hsl : slice (pre ++ (105 :: append_int64 n) ++ rest) (pre.length + 1) 8 =
                  append_int64 n := by
                have := slice_mid1 pre 105 (append_int64 n) rest
                rwa [hplen] at this
              have hval : toSigned 8 (leVal (append_int64 n)) = n := by
                unfold append_int64
                rw [leVal_leBytes]
                exact toSigned8_twos n hlo (by omega)
              have hd : dOf (.vint n) = .dbigint n := by
                simp [dOf, hneg]
                omega
              simp only [read_value, if_pos hc, hb]
              norm_num [config]
              simp only [List.cons_append, List.append_assoc] at hck hsl
              rw [readIntW_at _ _ 8 hck, hsl, hval, except_map_ok, hd, hplen]
    · by_cases h8 : n ≤ 255
      · refine ⟨[17, n.toNat], ?_, by simp, fun pre rest f hf => ?_⟩
        · simp [write_value, hneg, h8, append_uint8_ok n (by omega) h8]
        · rcases f with _ | f
          · omega
          · have hc : pre.length < (pre ++ [17, n.toNat] ++ rest).length := by
              rw [length_triple]
              simp
              omega
            have hb : byteAt (pre ++ [17, n.toNat] ++ rest) pre.length = 17 :=
              byteAt_mid0 pre 17 _ rest
            have hck : pre.length + 1 + 1 ≤ (pre ++ [17, n.toNat] ++ rest).length := by
              rw [length_triple]
              simp
            have hsl : slice (pre ++ [17, n.toNat] ++ rest) (pre.length + 1) 1 =
                [n.toNat] := by
              have := slice_mid1 pre 17 [n.toNat] rest
              simpa using this
            have hval : ((leVal [n.toNat] : Nat) : Int) = n := by
              simp [leVal]
              omega
            have hd : dOf (.vint n) = .dint n := by
              simp [dOf, hneg]
              omega
            simp only [read_value, if_pos hc, hb]
            norm_num [config]
            simp only [List.cons_append, List.append_assoc, List.nil_append] at hck hsl
            rw [readUIntW_at _ _ 1 hck, hsl, except_map_ok]
            simp only [hd]
            norm_num [hval]
      · by_cases h16 : n ≤ 65535
        · refine ⟨49 :: leBytes 2 n.toNat, ?_, by simp, fun pre rest f hf => ?_⟩
          · simp [write_value, hneg, h8, h16, append_uint16_ok n (by omega) h16]
          · rcases f with _ | f
            · omega
            · have hplen : (leBytes 2 n.toNat).length = 2 := leBytes_length 2 _
              have hc : pre.length < (pre ++ (49 :: leBytes 2 n.toNat) ++ rest).length := by
                rw [length_triple]
                simp
                omega
              have hb : byteAt (pre ++ (49 :: leBytes 2 n.toNat) ++ rest) pre.length = 49 :=
                byteAt_mid0 pre 49 _ rest
              have hck : pre.length + 1 + 2 ≤
                  (pre ++ (49 :: leBytes 2 n.toNat) ++ rest).length := by
                rw [length_triple]
                simp [hplen]
              have hsl : slice (pre ++ (49 :: leBytes 2 n.toNat) ++ rest) (pre.length + 1) 2 =
                  leBytes 2 n.toNat := by
                have := slice_mid1 pre 49 (leBytes 2 n.toNat) rest
                rwa [hplen] at this
              have hval : ((leVal (leBytes 2 n.toNat) : Nat) : Int) = n := by
                rw [leVal_leBytes]
                norm_num
                omega
              have hd : dOf (.vint n) = .dint n := by
                simp [dOf, hneg]
                omega
              simp only [read_value, if_pos hc, hb]
              norm_num [config]
              simp only [List.cons_append, List.append_assoc] at hck hsl
              rw [readUIntW_at _ _ 2 hck, hsl, except_map_ok, hplen]
              simp only [hd]
              norm_num [hval]
        · by_cases h32 : n ≤ 4294967295
          · refine ⟨81 :: leBytes 4 n.toNat, ?_, by simp, fun pre rest f hf => ?_⟩
            · simp [write_value, hneg, h8, h16, h32, append_uint32_ok n (by omega) h32]
            · rcases f with _ | f
              · omega
              · have hplen : (leBytes 4 n.toNat).length = 4 := leBytes_length 4 _
                have hc : pre.length <
                    (pre ++ (81 :: leBytes 4 n.toNat) ++ rest).length := by
                  rw [length_triple]
                  simp
                  omega
                have hb : byteAt (pre ++ (81 :: leBytes 4 n.toNat) ++ rest) pre.length =
                    81 := byteAt_mid0 pre 81 _ rest
                have hck : pre.length + 1 + 4 ≤
                    (pre ++ (81 :: leBytes 4 n.toNat) ++ rest).length := by
                  rw [length_triple]
                  simp [hplen]
                have hsl : slice (pre ++ (81 :: leBytes 4 n.toNat) ++ rest)
                    (pre.length + 1) 4 = leBytes 4 n.toNat := by
                  have := slice_mid1 pre 81 (leBytes 4 n.toNat) rest
                  rwa [hplen] at this
                have hval : ((leVal (leBytes 4 n.toNat) : Nat) : Int) = n := by
                  rw [leVal_leBytes]
                  norm_num
                  omega
                have hd : dOf (.vint n) = .dint n := by
                  simp [dOf, hneg]
                  omega
                simp only [read_value, if_pos hc, hb]
                norm_num [config]
                simp only [List.cons_append, List.append_assoc] at hck hsl
                rw [readUIntW_at _ _ 4 hck, hsl, except_map_ok, hplen]
                simp only [hd]
                norm_num [hval]
          · refine ⟨113 :: (leBytes 4 (n.toNat % 4294967296) ++
                leBytes 4 (n.toNat / 4294967296 % 4294967296)), ?_, by simp,
              fun pre rest f hf => ?_⟩
            · simp [write_value, hneg, h8, h16, h32,
                append_uint64_ok n (by omega) (by omega)]
            · rcases f with _ | f
              · omega
              · set payload := leBytes 4 (n.toNat % 4294967296) ++
                  leBytes 4 (n.toNat / 4294967296 % 4294967296) with hpay
                have hplen : payload.length = 8 := by
                  simp [hpay, leBytes_length]
                have hc : pre.length < (pre ++ (113 :: payload) ++ rest).length := by
                  rw [length_triple]
                  simp
                  omega
                have hb : byteAt (pre ++ (113 :: payload) ++ rest) pre.length = 113 :=
                  byteAt_mid0 pre 113 _ rest
                have hck : pre.length + 1 + 8 ≤
                    (pre ++ (113 :: payload) ++ rest).length := by
                  rw [length_triple]
                  simp [hplen]
                have hsl : slice (pre ++ (113 :: payload) ++ rest) (pre.length + 1) 8 =
                    payload := by
                  have := slice_mid1 pre 113 payload rest
                  rwa [hplen] at this
                have hval : ((leVal payload : Nat) : Int) = n := by
                  rw [hpay, leVal_append, leVal_leBytes, leVal_leBytes, leBytes_length]
                  norm_num
                  omega
                have hd : dOf (.vint n) = .dbigint n := by
                  simp [dOf, hneg]
                  omega
                simp only [read_value, if_pos hc, hb]
                norm_num [config]
                simp only [List.cons_append, List.append_assoc] at hck hsl
                rw [readUIntW_at _ _ 8 hck, hsl, except_map_ok, hplen]
                simp only [hd]
                norm_num [hval]
  | .vfloat bits, hG => by
    have hb64 : bits < 18446744073709551616 := by
      rcases hG with _ | _ | _ | ⟨_, hb⟩ | _ | _ | _
      exact hb
    refine ⟨97 :: leBytes 8 bits, rfl, by simp, fun pre rest f hf => ?_⟩
    rcases f with _ | f
    · omega
    · have hplen : (leBytes 8 bits).length = 8 := leBytes_length 8 _
      have hc : pre.length < (pre ++ (97 :: leBytes 8 bits) ++ rest).length := by
        rw [length_triple]
        simp
        omega
      have hb : byteAt (pre ++ (97 :: leBytes 8 bits) ++ rest) pre.length = 97 :=
        byteAt_mid0 pre 97 _ rest
      have hck : pre.length + 1 + 8 ≤ (pre ++ (97 :: leBytes 8 bits) ++ rest).length := by
        rw [length_triple]
        simp [hplen]
      have hsl : slice (pre ++ (97 :: leBytes 8 bits) ++ rest) (pre.length + 1) 8 =
          leBytes 8 bits := by
        have := slice_mid1 pre 97 (leBytes 8 bits) rest
        rwa [hplen] at this
      have hval : leVal (leBytes 8 bits) = bits := by
        rw [leVal_leBytes]
        norm_num
        omega
      simp only [read_value, if_pos hc, hb]
      norm_num [config]
      simp only [List.cons_append, List.append_assoc] at hck hsl
      rw [readUIntW_at _ _ 8 hck, hsl, hval, except_map_ok, hplen]
      norm_num [dOf]
  | .vstr s, hG => by
    obtain ⟨hsc, hblen⟩ : (∀ c ∈ s, Scalar c) ∧ (utf8Encode s).length < 536870912 := by
      rcases hG with _ | _ | _ | _ | ⟨_, hsc, hblen⟩ | _ | _
      exact ⟨hsc, hblen⟩
    obtain ⟨cnt, hwc, hcp, hcl, hrcread, hrctrunc⟩ := wc_spec (utf8Encode s).length hblen
    refine ⟨2 :: cnt ++ utf8Encode s, ?_, by simp, fun pre rest f hf => ?_⟩
    · simp [write_value, hwc, except_bind_ok, except_pure]
    · rcases f with _ | f
      · omega
      · have hc : pre.length < (pre ++ (2 :: cnt ++ utf8Encode s) ++ rest).length := by
          rw [length_triple]
          simp
          omega
        have hb : byteAt (pre ++ (2 :: cnt ++ utf8Encode s) ++ rest) pre.length = 2 :=
          byteAt_mid0 pre 2 _ rest
        have hrc : read_compressed (pre ++ (2 :: cnt ++ utf8Encode s) ++ rest)
            (pre.length + 1) =
            .ok ((utf8Encode s).length, pre.length + 1 + cnt.length) := by
          have := hrcread (pre ++ [2]) (utf8Encode s ++ rest)
          simp only [List.append_assoc, List.length_append, List.length_cons,
            List.length_nil, List.cons_append, List.nil_append] at this ⊢
          convert this using 2
        have hck : pre.length + 1 + cnt.length + (utf8Encode s).length ≤
            (pre ++ (2 :: cnt ++ utf8Encode s) ++ rest).length := by
          rw [length_triple]
          simp
          omega
        have hsl : slice (pre ++ (2 :: cnt ++ utf8Encode s) ++ rest)
            (pre.length + 1 + cnt.length) (utf8Encode s).length = utf8Encode s := by
          have := slice_mid pre (2 :: cnt ++ utf8Encode s) rest (1 + cnt.length)
            (utf8Encode s).length (by simp; omega)
          have h2 : slice (2 :: cnt ++ utf8Encode s) (1 + cnt.length)
              (utf8Encode s).length = utf8Encode s := by
            unfold slice
            have : (2 :: cnt ++ utf8Encode s).drop (1 + cnt.length) = utf8Encode s := by
              rw [show (2 : Nat) :: cnt ++ utf8Encode s = (2 :: cnt) ++ utf8Encode s by simp,
                show 1 + cnt.length = (2 :: cnt).length by simp; omega]
              exact List.drop_left (2 :: cnt) (utf8Encode s)
            rw [this]
            simp
          rw [← Nat.add_assoc] at this
          rw [this, h2]
        simp only [read_value, if_pos hc, hb]
        norm_num
        try norm_num at hrc
        try norm_num at hsl
        rw [hrc]
        simp only [except_bind_ok]
        split
        · rw [hsl, utf8Decode_encode s hsc, except_pure]
          simp [dOf]
          omega
        · omega
  | .varr xs, hG => by
    obtain ⟨hxlen, hxs⟩ : JList.length xs < 536870912 ∧ RTGoodList xs := by
      rcases hG with _ | _ | _ | _ | _ | ⟨_, hxlen, hxs⟩ | _
      exact ⟨hxlen, hxs⟩
    obtain ⟨cnt, hwc, hcp, hcl, hrcread, hrctrunc⟩ := wc_spec (JList.length xs) hxlen
    obtain ⟨parts, hwl, hfold⟩ := write_read_list xs hxs
    refine ⟨5 :: cnt ++ parts, ?_, by simp, fun pre rest f hf => ?_⟩
    · simp [write_value, hwc, hwl, except_bind_ok, except_pure]
    · rcases f with _ | f
      · omega
      · have hc : pre.length < (pre ++ (5 :: cnt ++ parts) ++ rest).length := by
          rw [length_triple]
          simp
          omega
        have hb : byteAt (pre ++ (5 :: cnt ++ parts) ++ rest) pre.length = 5 :=
          byteAt_mid0 pre 5 _ rest
        have hrc : read_compressed (pre ++ (5 :: cnt ++ parts) ++ rest) (pre.length + 1) =
            .ok (JList.length xs, pre.length + 1 + cnt.length) := by
          have := hrcread (pre ++ [5]) (parts ++ rest)
          simp only [List.append_assoc, List.length_append, List.length_cons,
            List.length_nil, List.cons_append, List.nil_append] at this ⊢
          convert this using 2
        have hbuf : (pre ++ (5 :: cnt)) ++ parts ++ rest =
            pre ++ (5 :: cnt ++ parts) ++ rest := by
          simp
        have hfi := hfold (pre ++ (5 :: cnt)) rest f [] (by simp at hf ⊢; omega)
        rw [hbuf] at hfi
        have hplen2 : (pre ++ (5 :: cnt)).length = pre.length + 1 + cnt.length := by
          simp
          omega
        rw [hplen2] at hfi
        simp only [read_value, if_pos hc, hb]
        norm_num
        try norm_num at hrc
        try norm_num at hfi
        rw [hrc]
        simp only [except_bind_ok]
        rw [hfi]
        simp only [except_map_ok]
        simp [dOf]
        omega
  | .vobj kvs, hG => by
    obtain ⟨hklen, hnd, hkm⟩ :
        JMembers.count kvs < 536870912 ∧ (JMembers.keys kvs).Nodup ∧ RTGoodMembers kvs := by
      rcases hG with _ | _ | _ | _ | _ | _ | ⟨_, hklen, hnd, hkm⟩
      exact ⟨hklen, hnd, hkm⟩
    have hkc : JMembers.keptCount kvs = JMembers.count kvs := keptCount_count kvs hkm
    obtain ⟨cnt, hwc, hcp, hcl, hrcread, hrctrunc⟩ := wc_spec (JMembers.count kvs) hklen
    obtain ⟨parts, hwm, hfold⟩ := write_read_members kvs hkm hnd
    refine ⟨3 :: cnt ++ parts, ?_, by simp, fun pre rest f hf => ?_⟩
    · simp [write_value, hkc, hwc, hwm, except_bind_ok, except_pure]
    · rcases f with _ | f
      · omega
      · have hc : pre.length < (pre ++ (3 :: cnt ++ parts) ++ rest).length := by
          rw [length_triple]
          simp
          omega
        have hb : byteAt (pre ++ (3 :: cnt ++ parts) ++ rest) pre.length = 3 :=
          byteAt_mid0 pre 3 _ rest
        have hrc : read_compressed (pre ++ (3 :: cnt ++ parts) ++ rest) (pre.length + 1) =
            .ok (JMembers.count kvs, pre.length + 1 + cnt.length) := by
          have := hrcread (pre ++ [3]) (parts ++ rest)
          simp only [List.append_assoc, List.length_append, List.length_cons,
            List.length_nil, List.cons_append, List.nil_append] at this ⊢
          convert this using 2
        have hbuf : (pre ++ (3 :: cnt)) ++ parts ++ rest =
            pre ++ (3 :: cnt ++ parts) ++ rest := by
          simp
        have hfi := hfold (pre ++ (3 :: cnt)) rest f [] (by simp at hf ⊢; omega)
          (by simp)
        rw [hbuf] at hfi
        have hplen2 : (pre ++ (3 :: cnt)).length = pre.length + 1 + cnt.length := by
          simp
          omega
        rw [hplen2] at hfi
        simp only [read_value, if_pos hc, hb]
        norm_num
        try norm_num at hrc
        try norm_num at hfi
        rw [hrc]
        simp only [except_bind_ok]
        rw [hfi]
        simp only [except_map_ok]
        simp [dOf]
        omega
  | .vbin bs, hG => by
    exact absurd hG (by intro h; cases h)
  | .vundef, hG => by
    exact absurd hG (by intro h; cases h)

/-- Round trip, element-list level: the concatenated element encodings decode
elementwise through the untyped-array fold of read_value. -/
theorem write_read_list : ∀ xs : JList, RTGoodList xs →
    ∃ bs : List Nat, write_list xs = .ok bs ∧
      ∀ (pre rest : List Nat) (f : Nat) (acc : List DVal), bs.length < f →
        (List.replicate (JList.length xs) ()).foldlM
          (fun (p : List DVal × Nat) _ => do
            let (v, c2) ← read_value (pre ++ bs ++ rest) f p.2
            pure (p.1 ++ [v], c2))
          (acc, pre.length)
        = .ok (acc ++ dOfList xs, pre.length + bs.length)
  | .nil, _ => by
    refine ⟨[], rfl, fun pre rest f acc hf => ?_⟩
    simp [JList.length, List.foldlM, dOfList, except_pure]
  | .cons x xt, hG => by
    rcases hG with _ | ⟨_, _, hx, hxt⟩
    obtain ⟨bx, hwx, hne, hrx⟩ := write_read_val x hx
    obtain ⟨bt, hwt, hft⟩ := write_read_list xt hxt
    refine ⟨bx ++ bt, by simp [write_list, hwx, hwt, except_bind_ok, except_pure],
      fun pre rest f acc hf => ?_⟩
    have hlen : JList.length (.cons x xt) = JList.length xt + 1 := rfl
    rw [hlen, List.replicate_succ, List.foldlM_cons]
    have hbuf : pre ++ (bx ++ bt) ++ rest = pre ++ bx ++ (bt ++ rest) := by simp
    have hstep := hrx pre (bt ++ rest) f (by simp at hf; omega)
    rw [← hbuf] at hstep
    rw [hstep]
    have hrec := hft (pre ++ bx) rest f (acc ++ [dOf x]) (by simp at hf ⊢; omega)
    have hbuf2 : (pre ++ bx) ++ bt ++ rest = pre ++ (bx ++ bt) ++ rest := by simp
    rw [hbuf2] at hrec
    have hplen : (pre ++ bx).length = pre.length + bx.length := by simp
    rw [hplen] at hrec
    simp only [except_bind_ok, except_pure] at hrec ⊢
    rw [hrec]
    simp [dOfList]
    omega

/-- Round trip, member-list level: the member encodings decode through the
object fold of read_value, appending one member per step (keys being fresh by
the no-duplicates hypothesis). -/
theorem write_read_members : ∀ kvs : JMembers, RTGoodMembers kvs →
    (JMembers.keys kvs).Nodup →
    ∃ bs : List Nat, write_members kvs = .ok bs ∧
      ∀ (pre rest : List Nat) (f : Nat) (acc : List (List Nat × DVal)), bs.length < f →
        (∀ k ∈ JMembers.keys kvs, ∀ p ∈ acc, p.1 ≠ k) →
        (List.replicate (JMembers.count kvs) ()).foldlM
          (fun (p : List (List Nat × DVal) × Nat) _ => do
            let (size, c2) ← read_compressed (pre ++ bs ++ rest) p.2
            if c2 + size ≤ (pre ++ bs ++ rest).length then do
              let (v, c3) ← read_value (pre ++ bs ++ rest) f (c2 + size)
              pure (jsInsert p.1 (utf8Decode (slice (pre ++ bs ++ rest) c2 size)) v, c3)
            else .error .truncated)
          (acc, pre.length)
        = .ok (acc ++ dOfMembers kvs, pre.length + bs.length)
  | .nil, _, _ => by
    refine ⟨[], rfl, fun pre rest f acc hf hfresh => ?_⟩
    simp [JMembers.count, List.foldlM, dOfMembers, except_pure]
  | .cons k v kt, hG, hnd => by
    rcases hG with _ | ⟨_, _, _, hasc, hklen, hv, hkt⟩
    have hndk : k ∉ JMembers.keys kt := by
      simp [JMembers.keys] at hnd
      exact hnd.1
    have hndt : (JMembers.keys kt).Nodup := by
      simp [JMembers.keys] at hnd
      exact hnd.2
    have hk16 : utf16Length k = k.length := ascii_utf16Length k hasc
    have hkenc : utf8Encode k = k := ascii_utf8Encode k hasc
    obtain ⟨ck, hwck, hckp, hckl, hckread, hcktrunc⟩ := wc_spec (utf16Length k)
      (by rw [hk16]; exact hklen)
    obtain ⟨bv, hwv, hvne, hrv⟩ := write_read_val v hv
    obtain ⟨bt, hwt, hft⟩ := write_read_members kt hkt hndt
    refine ⟨ck ++ k ++ bv ++ bt, ?_, fun pre rest f acc hf hfresh => ?_⟩
    · simp [write_members, rtgood_not_undef v hv, hwck, hwv, hwt, hkenc,
        except_bind_ok, except_pure]
    · have hcount : JMembers.count (.cons k v kt) = JMembers.count kt + 1 := rfl
      rw [hcount, List.replicate_succ, List.foldlM_cons]
      have hrck : read_compressed (pre ++ (ck ++ k ++ bv ++ bt) ++ rest) pre.length =
          .ok (utf16Length k, pre.length + ck.length) := by
        have := hckread pre (k ++ bv ++ bt ++ rest)
        simp only [List.append_assoc] at this ⊢
        exact this
      rw [hrck, except_bind_ok]
      have htot : (pre ++ (ck ++ k ++ bv ++ bt) ++ rest).length =
          pre.length + ck.length + k.length + bv.length + bt.length + rest.length := by
        rw [length_triple]
        simp
        omega
      have hinb : pre.length + ck.length + utf16Length k ≤
          (pre ++ (ck ++ k ++ bv ++ bt) ++ rest).length := by
        rw [htot, hk16]
        omega
      simp only [if_pos hinb]
      have hslk : slice (pre ++ (ck ++ k ++ bv ++ bt) ++ rest)
          (pre.length + ck.length) (utf16Length k) = k := by
        have := slice_mid pre (ck ++ k ++ bv ++ bt) rest ck.length k.length
          (by simp)
        have h2 : slice (ck ++ k ++ bv ++ bt) ck.length k.length = k := by
          unfold slice
          rw [show ck ++ k ++ bv ++ bt = ck ++ (k ++ (bv ++ bt)) by simp]
          rw [show ck.length = ck.length + 0 by omega, List.drop_append 0]
          simp [List.take_append_of_le_length]
        rw [hk16, this, h2]
      rw [hslk, utf8Decode_ascii k hasc]
      have hrvv : read_value (pre ++ (ck ++ k ++ bv ++ bt) ++ rest) f
          (pre.length + ck.length + utf16Length k) = .ok (dOf v,
            pre.length + ck.length + k.length + bv.length) := by
        have := hrv (pre ++ ck ++ k) (bt ++ rest) f (by simp at hf; omega)
        simp only [List.append_assoc] at this ⊢
        rw [hk16]
        convert this using 2 <;> simp <;> omega
      rw [hrvv]
      have hfresh2 : jsInsert acc k (dOf v) = acc ++ [(k, dOf v)] :=
        jsInsert_fresh acc k (dOf v) (fun p hp => hfresh k (by simp [JMembers.keys]) p hp)
      have hrec := hft (pre ++ ck ++ k ++ bv) rest f (acc ++ [(k, dOf v)])
        (by simp at hf ⊢; omega)
        (by
          intro k2 hk2 p hp
          simp at hp
          rcases hp with hp | hp
          · exact hfresh k2 (by simp [JMembers.keys]; right; exact hk2) p hp
          · rw [hp]
            simp
            intro hcon
            rw [hcon] at hndk
            exact hndk hk2)
      have hbuf2 : (pre ++ ck ++ k ++ bv) ++ bt ++ rest =
          pre ++ (ck ++ k ++ bv ++ bt) ++ rest := by simp
      rw [hbuf2] at hrec
      have hplen : (pre ++ ck ++ k ++ bv).length =
          pre.length + ck.length + k.length + bv.length := by
        simp
        omega
      rw [hplen] at hrec
      simp only [except_bind_ok, except_pure] at hrec ⊢
      rw [hfresh2, hrec]
      simp [dOfMembers]
      omega

end

theorem keptCount_le_count : ∀ kvs : JMembers,
    JMembers.keptCount kvs ≤ JMembers.count kvs
  | .nil => Nat.le_refl 0
  | .cons k v rest => by
    have := keptCount_le_count rest
    by_cases h : isUndef v <;> simp [JMembers.keptCount, JMembers.count, h] <;> omega

mutual

/-- Totality of the encoder on EncGood values: no validation throw fires. -/
theorem enc_ok_val : ∀ v : JVal, EncGood v → ∃ bs, write_value v = .ok bs
  | .vundef, _ => ⟨[0], rfl⟩
  | .vnull, _ => ⟨[0], rfl⟩
  | .vbool b, _ => ⟨[if b then 24 else 8], rfl⟩
  | .vfloat bits, _ => ⟨97 :: leBytes 8 bits, rfl⟩
  | .vint n, hG => by
    obtain ⟨hlo, hhi⟩ : -9223372036854775808 ≤ n ∧ n < 18446744073709551616 := by
      rcases hG with _ | _ | _ | ⟨_, hlo, hhi⟩ | _ | _ | _ | _ | _
      exact ⟨hlo, hhi⟩
    by_cases hneg : n < 0
    · by_cases h8 : -128 ≤ n
      · exact ⟨9 :: append_int8 n, by simp [write_value, hneg, h8]⟩
      · by_cases h16 : -32768 ≤ n
        · exact ⟨41 :: append_int16 n, by simp [write_value, hneg, h8, h16]⟩
        · by_cases h32 : -2147483648 ≤ n
          · exact ⟨73 :: append_int32 n, by simp [write_value, hneg, h8, h16, h32]⟩
          · exact ⟨105 :: append_int64 n, by simp [write_value, hneg, h8, h16, h32]⟩
    · by_cases h8 : n ≤ 255
      · exact ⟨[17, n.toNat],
          by simp [write_value, hneg, h8, append_uint8_ok n (by omega) h8]⟩
      · by_cases h16 : n ≤ 65535
        · exact ⟨49 :: leBytes 2 n.toNat,
            by simp [write_value, hneg, h8, h16, append_uint16_ok n (by omega) h16]⟩
        · by_cases h32 : n ≤ 4294967295
          · exact ⟨81 :: leBytes 4 n.toNat,
              by simp [write_value, hneg, h8, h16, h32, append_uint32_ok n (by omega) h32]⟩
          · exact ⟨113 :: (leBytes 4 (n.toNat % 4294967296) ++
                leBytes 4 (n.toNat / 4294967296 % 4294967296)),
              by simp [write_value, hneg, h8, h16, h32,
                append_uint64_ok n (by omega) (by omega)]⟩
  | .vstr s, hG => by
    have hb : (utf8Encode s).length < 536870912 := by
      rcases hG with _ | _ | _ | _ | _ | ⟨_, hb⟩ | _ | _ | _
      exact hb
    obtain ⟨cnt, hwc, _, _, _, _⟩ := wc_spec _ hb
    exact ⟨2 :: cnt ++ utf8Encode s,
      by simp [write_value, hwc, except_bind_ok, except_pure]⟩
  | .varr xs, hG => by
    obtain ⟨hlen, hxs⟩ : JList.length xs < 536870912 ∧ EncGoodList xs := by
      rcases hG with _ | _ | _ | _ | _ | _ | ⟨_, hlen, hxs⟩ | _ | _
      exact ⟨hlen, hxs⟩
    obtain ⟨cnt, hwc, _, _, _, _⟩ := wc_spec _ hlen
    obtain ⟨parts, hwl⟩ := enc_ok_list xs hxs
    exact ⟨5 :: cnt ++ parts,
      by simp [write_value, hwc, hwl, except_bind_ok, except_pure]⟩
  | .vobj kvs, hG => by
    obtain ⟨hlen, hkm⟩ : JMembers.count kvs < 536870912 ∧ EncGoodMembers kvs := by
      rcases hG with _ | _ | _ | _ | _ | _ | _ | ⟨_, hlen, hkm⟩ | _
      exact ⟨hlen, hkm⟩
    obtain ⟨cnt, hwc, _, _, _, _⟩ := wc_spec (JMembers.keptCount kvs)
      (lt_of_le_of_lt (keptCount_le_count kvs) hlen)
    obtain ⟨parts, hwm⟩ := enc_ok_members kvs hkm
    exact ⟨3 :: cnt ++ parts,
      by simp [write_value, hwc, hwm, except_bind_ok, except_pure]⟩
  | .vbin bs, hG => by
    have hb : bs.length < 536870912 := by
      rcases hG with _ | _ | _ | _ | _ | _ | _ | _ | ⟨_, hb⟩
      exact hb
    obtain ⟨cnt, hwc, _, _, _, _⟩ := wc_spec _ hb
    exact ⟨6 :: cnt ++ bs, by simp [write_value, hwc, except_bind_ok, except_pure]⟩

/-- Totality of the encoder's element loop on EncGood lists. -/
theorem enc_ok_list : ∀ xs : JList, EncGoodList xs → ∃ bs, write_list xs = .ok bs
  | .nil, _ => ⟨[], rfl⟩
  | .cons x xt, hG => by
    rcases hG with _ | ⟨_, _, hx, hxt⟩
    obtain ⟨bx, hwx⟩ := enc_ok_val x hx
    obtain ⟨bt, hwt⟩ := enc_ok_list xt hxt
    exact ⟨bx ++ bt, by simp [write_list, hwx, hwt, except_bind_ok, except_pure]⟩

/-- Totality of the encoder's member loop on EncGood member lists. -/
theorem enc_ok_members : ∀ kvs : JMembers, EncGoodMembers kvs →
    ∃ bs, write_members kvs = .ok bs
  | .nil, _ => ⟨[], rfl⟩
  | .cons k v kt, hG => by
    rcases hG with _ | ⟨_, _, _, hklen, hv, hkt⟩
    obtain ⟨bt, hwt⟩ := enc_ok_members kt hkt
    by_cases hu : isUndef v
    · exact ⟨bt, by simp [write_members, hu, hwt]⟩
    · obtain ⟨ck, hwck, _, _, _, _⟩ := wc_spec _ hklen
      obtain ⟨bv, hwv⟩ := enc_ok_val v hv
      exact ⟨ck ++ utf8Encode k ++ bv ++ bt,
        by simp [write_members, hu, hwck, hwv, hwt, except_bind_ok, except_pure]⟩

end

theorem except_map_err {α β ε : Type} (g : α → β) (e : ε) :
    (g <$> (Except.error e : Except ε α)) = .error e := rfl

theorem readUIntW_oob (buf : List Nat) (c w : Nat) (h : ¬ c + w ≤ buf.length) :
    readUIntW buf c w = .error .truncated := by
  simp [readUIntW, h]

theorem readIntW_oob (buf : List Nat) (c w : Nat) (h : ¬ c + w ≤ buf.length) :
    readIntW buf c w = .error .truncated := by
  simp [readIntW, h]

mutual

/-- Truncation safety, value level: dropping the last byte of an RTGood
value's encoding makes read_value fail with the truncation error, wherever
the truncated bytes sit at the end of the buffer, for any fuel of at least
the encoding's length. -/
theorem trunc_val : ∀ v : JVal, RTGood v →
    ∃ bs : List Nat, write_value v = .ok bs ∧ bs ≠ [] ∧
      ∀ (pre : List Nat) (f : Nat), bs.length ≤ f →
        read_value (pre ++ bs.dropLast) f pre.length = .error .truncated
  | .vnull, _ => by
    refine ⟨[0], rfl, by simp, fun pre f hf => ?_⟩
    rcases f with _ | f
    · simp at hf
    · simp [read_value]
  | .vbool b, _ => by
    refine ⟨[if b then 24 else 8], by cases b <;> rfl, by cases b <;> simp,
      fun pre f hf => ?_⟩
    rcases f with _ | f
    · cases b <;> simp at hf
    · cases b <;> simp [read_value]
  | .vint n, hG => by
    have hbounds : -9223372036854775808 ≤ n ∧ n < 18446744073709551616 := by
      rcases hG with _ | _ | ⟨_, hlo, hhi⟩ | _ | _ | _ | _
      exact ⟨hlo, hhi⟩
    obtain ⟨hlo, hhi⟩ := hbounds
    by_cases hneg : n < 0
    · by_cases h8 : -128 ≤ n
      · refine ⟨9 :: append_int8 n, by simp [write_value, hneg, h8], by simp,
          fun pre f hf => ?_⟩
        have hplen : (append_int8 n).length = 1 := leBytes_length 1 _
        rcases f with _ | f
        · simp at hf
        · have hne : append_int8 n ≠ [] := by
            intro hcon
            rw [hcon] at hplen
            simp at hplen
          rw [List.dropLast_cons_of_ne_nil hne]
          have hdl : (append_int8 n).dropLast.length = 0 := by
            rw [List.length_dropLast, hplen]
          have hc : pre.length < (pre ++ 9 :: (append_int8 n).dropLast).length := by
            simp
          have hb : byteAt (pre ++ 9 :: (append_int8 n).dropLast) pre.length = 9 := by
            simpa using byteAt_mid0 pre 9 ((append_int8 n).dropLast) []
          simp only [read_value, if_pos hc, hb]
          norm_num [config]
          rw [readIntW_oob _ _ _ (by
            rw [List.length_append, List.length_cons, hdl]
            omega), except_map_err]
      · by_cases h16 : -32768 ≤ n
        · refine ⟨41 :: append_int16 n, by simp [write_value, hneg, h8, h16], by simp,
            fun pre f hf => ?_⟩
          have hplen : (append_int16 n).length = 2 := leBytes_length 2 _
          rcases f with _ | f
          · simp at hf
          · have hne : append_int16 n ≠ [] := by
              intro hcon
              rw [hcon] at hplen
              simp at hplen
            rw [List.dropLast_cons_of_ne_nil hne]
            have hdl : (append_int16 n).dropLast.length = 1 := by
              rw [List.length_dropLast, hplen]
            have hc : pre.length < (pre ++ 41 :: (append_int16 n).dropLast).length := by
              simp
            have hb : byteAt (pre ++ 41 :: (append_int16 n).dropLast) pre.length = 41 := by
              simpa using byteAt_mid0 pre 41 ((append_int16 n).dropLast) []
            simp only [read_value, if_pos hc, hb]
            norm_num [config]
            rw [readIntW_oob _ _ _ (by
              rw [List.length_append, List.length_cons, hdl]
              omega), except_map_err]
        · by_cases h32 : -2147483648 ≤ n
          · refine ⟨73 :: append_int32 n, by simp [write_value, hneg, h8, h16, h32],
              by simp, fun pre f hf => ?_⟩
            have hplen : (append_int32 n).length = 4 := leBytes_length 4 _
            rcases f with _ | f
            · simp at hf
            · have hne : append_int32 n ≠ [] := by
                intro hcon
                rw [hcon] at hplen
                simp at hplen
              rw [List.dropLast_cons_of_ne_nil hne]
              have hdl : (append_int32 n).dropLast.length = 3 := by
                rw [List.length_dropLast, hplen]
              have hc : pre.length <
                  (pre ++ 73 :: (append_int32 n).dropLast).length := by
                simp
              have hb : byteAt (pre ++ 73 :: (append_int32 n).dropLast) pre.length =
                  73 := by
                simpa using byteAt_mid0 pre 73 ((append_int32 n).dropLast) []
              simp only [read_value, if_pos hc, hb]
              norm_num [config]
              rw [readIntW_oob _ _ _ (by
                rw [List.length_append, List.length_cons, hdl]
                omega), except_map_err]
          · refine ⟨105 :: append_int64 n, by simp [write_value, hneg, h8, h16, h32],
              by simp, fun pre f hf => ?_⟩
            have hplen : (append_int64 n).length = 8 := leBytes_length 8 _
            rcases f with _ | f
            · simp at hf
            · have hne : append_int64 n ≠ [] := by
                intro hcon
                rw [hcon] at hplen
                simp at hplen
              rw [List.dropLast_cons_of_ne_nil hne]
              have hdl : (append_int64 n).dropLast.length = 7 := by
                rw [List.length_dropLast, hplen]
              have hc : pre.length <
                  (pre ++ 105 :: (append_int64 n).dropLast).length := by
                simp
              have hb : byteAt (pre ++ 105 :: (append_int64 n).dropLast) pre.length =
                  105 := by
                simpa using byteAt_mid0 pre 105 ((append_int64 n).dropLast) []
              simp only [read_value, if_pos hc, hb]
              norm_num [config]
              rw [readIntW_oob _ _ _ (by
                rw [List.length_append, List.length_cons, hdl]
                omega), except_map_err]
    · by_cases h8 : n ≤ 255
      · refine ⟨[17, n.toNat], ?_, by simp, fun pre f hf => ?_⟩
        · simp [write_value, hneg, h8, append_uint8_ok n (by omega) h8]
        · rcases f with _ | f
          · simp at hf
          · have hc : pre.length < (pre ++ [17, n.toNat].dropLast).length := by
              simp
            have hb : byteAt (pre ++ [17, n.toNat].dropLast) pre.length = 17 := by
              simpa using byteAt_mid0 pre 17 [] []
            simp only [read_value, if_pos hc, hb]
            norm_num [config]
            rw [readUIntW_oob _ _ _ (by simp), except_map_err]
      · by_cases h16 : n ≤ 65535
        · refine ⟨49 :: leBytes 2 n.toNat, ?_, by simp, fun pre f hf => ?_⟩
          · simp [write_value, hneg, h8, h16, append_uint16_ok n (by omega) h16]
          · have hplen : (leBytes 2 n.toNat).length = 2 := leBytes_length 2 _
            rcases f with _ | f
            · simp at hf
            · have hne : leBytes 2 n.toNat ≠ [] := by
                intro hcon
                rw [hcon] at hplen
                simp at hplen
              rw [List.dropLast_cons_of_ne_nil hne]
              have hdl : (leBytes 2 n.toNat).dropLast.length = 1 := by
                rw [List.length_dropLast, hplen]
              have hc : pre.length <
                  (pre ++ 49 :: (leBytes 2 n.toNat).dropLast).length := by
                simp
              have hb : byteAt (pre ++ 49 :: (leBytes 2 n.toNat).dropLast) pre.length =
                  49 := by
                simpa using byteAt_mid0 pre 49 ((leBytes 2 n.toNat).dropLast) []
              simp only [read_value, if_pos hc, hb]
              norm_num [config]
              rw [readUIntW_oob _ _ _ (by
                rw [List.length_append, List.length_cons, hdl]
                omega), except_map_err]
        · by_cases h32 : n ≤ 4294967295
          · refine ⟨81 :: leBytes 4 n.toNat, ?_, by simp, fun pre f hf => ?_⟩
            · simp [write_value, hneg, h8, h16, h32, append_uint32_ok n (by omega) h32]
            · have hplen : (leBytes 4 n.toNat).length = 4 := leBytes_length 4 _
              rcases f with _ | f
              · simp at hf
              · have hne : leBytes 4 n.toNat ≠ [] := by
                  intro hcon
                  rw [hcon] at hplen
                  simp at hplen
                rw [List.dropLast_cons_of_ne_nil hne]
                have hdl : (leBytes 4 n.toNat).dropLast.length = 3 := by
                  rw [List.length_dropLast, hplen]
                have hc : pre.length <
                    (pre ++ 81 :: (leBytes 4 n.toNat).dropLast).length := by
                  simp
                have hb : byteAt (pre ++ 81 :: (leBytes 4 n.toNat).dropLast)
                    pre.length = 81 := by
                  simpa using byteAt_mid0 pre 81 ((leBytes 4 n.toNat).dropLast) []
                simp only [read_value, if_pos hc, hb]
                norm_num [config]
                rw [readUIntW_oob _ _ _ (by
                  rw [List.length_append, List.length_cons, hdl]
                  omega), except_map_err]
          · refine ⟨113 :: (leBytes 4 (n.toNat % 4294967296) ++
                leBytes 4 (n.toNat / 4294967296 % 4294967296)), ?_, by simp,
              fun pre f hf => ?_⟩
            · simp [write_value, hneg, h8, h16, h32,
                append_uint64_ok n (by omega) (by omega)]
            · set payload := leBytes 4 (n.toNat % 4294967296) ++
                leBytes 4 (n.toNat / 4294967296 % 4294967296) with hpay
              have hplen : payload.length = 8 := by
                simp [hpay, leBytes_length]
              rcases f with _ | f
              · simp [hplen] at hf
              · have hne : payload ≠ [] := by
                  intro hcon
                  rw [hcon] at hplen
                  simp at hplen
                rw [List.dropLast_cons_of_ne_nil hne]
                have hdl : payload.dropLast.length = 7 := by
                  rw [List.length_dropLast, hplen]
                have hc : pre.length < (pre ++ 113 :: payload.dropLast).length := by
                  simp
                have hb : byteAt (pre ++ 113 :: payload.dropLast) pre.length = 113 := by
                  simpa using byteAt_mid0 pre 113 payload.dropLast []
                simp only [read_value, if_pos hc, hb]
                norm_num [config]
                rw [readUIntW_oob _ _ _ (by
                  rw [List.length_append, List.length_cons, hdl]
                  omega), except_map_err]
  | .vfloat bits, hG => by
    refine ⟨97 :: leBytes 8 bits, rfl, by simp, fun pre f hf => ?_⟩
    have hplen : (leBytes 8 bits).length = 8 := leBytes_length 8 _
    rcases f with _ | f
    · simp at hf
    · have hne : leBytes 8 bits ≠ [] := by
        intro hcon
        rw [hcon] at hplen
        simp at hplen
      rw [List.dropLast_cons_of_ne_nil hne]
      have hdl : (leBytes 8 bits).dropLast.length = 7 := by
        rw [List.length_dropLast, hplen]
      have hc : pre.length < (pre ++ 97 :: (leBytes 8 bits).dropLast).length := by
        simp
      have hb : byteAt (pre ++ 97 :: (leBytes 8 bits).dropLast) pre.length = 97 := by
        simpa using byteAt_mid0 pre 97 ((leBytes 8 bits).dropLast) []
      simp only [read_value, if_pos hc, hb]
      norm_num [config]
      rw [readUIntW_oob _ _ _ (by
        rw [List.length_append, List.length_cons, hdl]
        omega), except_map_err]
  | .vstr s, hG => by
    obtain ⟨hsc, hblen⟩ : (∀ c ∈ s, Scalar c) ∧ (utf8Encode s).length < 536870912 := by
      rcases hG with _ | _ | _ | _ | ⟨_, hsc, hblen⟩ | _ | _
      exact ⟨hsc, hblen⟩
    obtain ⟨cnt, hwc, hcp, hcl, hrcread, hrctrunc⟩ := wc_spec (utf8Encode s).length hblen
    refine ⟨2 :: cnt ++ utf8Encode s, ?_, by simp, fun pre f hf => ?_⟩
    · simp [write_value, hwc, except_bind_ok, except_pure]
    · rcases f with _ | f
      · simp at hf
      · by_cases henc : utf8Encode s = []
        · rw [henc]
          have hcne : cnt ≠ [] := by
            intro hcon
            rw [hcon] at hcp
            simp at hcp
          have hdrop : ((2 : Nat) :: cnt ++ []).dropLast = 2 :: cnt.dropLast := by
            rw [List.append_nil, List.dropLast_cons_of_ne_nil hcne]
          rw [hdrop]
          have hc : pre.length < (pre ++ 2 :: cnt.dropLast).length := by
            simp
          have hb : byteAt (pre ++ 2 :: cnt.dropLast) pre.length = 2 := by
            simpa using byteAt_mid0 pre 2 cnt.dropLast []
          have hrcT : read_compressed (pre ++ 2 :: cnt.dropLast) (pre.length + 1) =
              .error .truncated := by
            have := hrctrunc (pre ++ [2])
            simp only [List.append_assoc, List.length_append, List.length_cons,
              List.length_nil, List.cons_append, List.nil_append] at this ⊢
            convert this using 2
          simp only [read_value, if_pos hc, hb]
          norm_num
          try norm_num at hrcT
          rw [hrcT]
          simp [except_bind_err]
        · have hdrop : ((2 : Nat) :: cnt ++ utf8Encode s).dropLast =
              2 :: cnt ++ (utf8Encode s).dropLast := by
            rw [show (2 : Nat) :: cnt ++ utf8Encode s = 2 :: (cnt ++ utf8Encode s) by simp,
              List.dropLast_cons_of_ne_nil (by simp [henc]),
              List.dropLast_append_of_ne_nil cnt henc]
            simp
          rw [hdrop]
          have hlp : 0 < (utf8Encode s).length := List.length_pos.mpr henc
          have hc : pre.length <
              (pre ++ (2 :: cnt ++ (utf8Encode s).dropLast)).length := by
            simp
          have hb : byteAt (pre ++ (2 :: cnt ++ (utf8Encode s).dropLast)) pre.length =
              2 := by
            simpa using byteAt_mid0 pre 2 (cnt ++ (utf8Encode s).dropLast) []
          have hrc : read_compressed (pre ++ (2 :: cnt ++ (utf8Encode s).dropLast))
              (pre.length + 1) =
              .ok ((utf8Encode s).length, pre.length + 1 + cnt.length) := by
            have := hrcread (pre ++ [2]) ((utf8Encode s).dropLast)
            simp only [List.append_assoc, List.length_append, List.length_cons,
              List.length_nil, List.cons_append, List.nil_append] at this ⊢
            convert this using 2
          simp only [read_value, if_pos hc, hb]
          norm_num
          try norm_num at hrc
          rw [hrc]
          simp only [except_bind_ok]
          split
          · exfalso
            omega
          · rfl
  | .varr xs, hG => by
    obtain ⟨hxlen, hxs⟩ : JList.length xs < 536870912 ∧ RTGoodList xs := by
      rcases hG with _ | _ | _ | _ | _ | ⟨_, hxlen, hxs⟩ | _
      exact ⟨hxlen, hxs⟩
    obtain ⟨cnt, hwc, hcp, hcl, hrcread, hrctrunc⟩ := wc_spec (JList.length xs) hxlen
    by_cases hxs0 : xs = JList.nil
    · subst hxs0
      refine ⟨5 :: cnt ++ [], ?_, by simp, fun pre f hf => ?_⟩
      · simp [write_value, hwc, write_list, except_bind_ok, except_pure]
      · rcases f with _ | f
        · simp at hf
        · have hcne : cnt ≠ [] := by
            intro hcon
            rw [hcon] at hcp
            simp at hcp
          have hdrop : ((5 : Nat) :: cnt ++ []).dropLast = 5 :: cnt.dropLast := by
            rw [List.append_nil, List.dropLast_cons_of_ne_nil hcne]
          rw [hdrop]
          have hc : pre.length < (pre ++ 5 :: cnt.dropLast).length := by
            simp
          have hb : byteAt (pre ++ 5 :: cnt.dropLast) pre.length = 5 := by
            simpa using byteAt_mid0 pre 5 cnt.dropLast []
          have hrcT : read_compressed (pre ++ 5 :: cnt.dropLast) (pre.length + 1) =
              .error .truncated := by
            have := hrctrunc (pre ++ [5])
            simp only [List.append_assoc, List.length_append, List.length_cons,
              List.length_nil, List.cons_append, List.nil_append] at this ⊢
            convert this using 2
          simp only [read_value, if_pos hc, hb]
          norm_num
          try norm_num at hrcT
          rw [hrcT]
          simp [except_bind_err]
    · obtain ⟨parts, hwl, hpne, hfold⟩ := trunc_list xs hxs hxs0
      refine ⟨5 :: cnt ++ parts, ?_, by simp, fun pre f hf => ?_⟩
      · simp [write_value, hwc, hwl, except_bind_ok, except_pure]
      · rcases f with _ | f
        · simp at hf
        · have hdrop : ((5 : Nat) :: cnt ++ parts).dropLast =
              5 :: cnt ++ parts.dropLast := by
            rw [show (5 : Nat) :: cnt ++ parts = 5 :: (cnt ++ parts) by simp,
              List.dropLast_cons_of_ne_nil (by simp [hpne]),
              List.dropLast_append_of_ne_nil cnt hpne]
            simp
          rw [hdrop]
          have hc : pre.length < (pre ++ (5 :: cnt ++ parts.dropLast)).length := by
            simp
          have hb : byteAt (pre ++ (5 :: cnt ++ parts.dropLast)) pre.length = 5 := by
            simpa using byteAt_mid0 pre 5 (cnt ++ parts.dropLast) []
          have hrc : read_compressed (pre ++ (5 :: cnt ++ parts.dropLast))
              (pre.length + 1) =
              .ok (JList.length xs, pre.length + 1 + cnt.length) := by
            have := hrcread (pre ++ [5]) (parts.dropLast)
            simp only [List.append_assoc, List.length_append, List.length_cons,
              List.length_nil, List.cons_append, List.nil_append] at this ⊢
            convert this using 2
          have hbuf : (pre ++ (5 :: cnt)) ++ parts.dropLast =
              pre ++ (5 :: cnt ++ parts.dropLast) := by
            simp
          have hfi := hfold (pre ++ (5 :: cnt)) f [] (by simp at hf ⊢; omega)
          rw [hbuf] at hfi
          have hplen2 : (pre ++ (5 :: cnt)).length = pre.length + 1 + cnt.length := by
            simp
            omega
          rw [hplen2] at hfi
          simp only [read_value, if_pos hc, hb]
          norm_num
          try norm_num at hrc
          try norm_num at hfi
          rw [hrc]
          simp only [except_bind_ok]
          rw [hfi]
          simp [except_bind_err]
  | .vobj kvs, hG => by
    obtain ⟨hklen, hnd, hkm⟩ :
        JMembers.count kvs < 536870912 ∧ (JMembers.keys kvs).Nodup ∧ RTGoodMembers kvs := by
      rcases hG with _ | _ | _ | _ | _ | _ | ⟨_, hklen, hnd, hkm⟩
      exact ⟨hklen, hnd, hkm⟩
    have hkc : JMembers.keptCount kvs = JMembers.count kvs := keptCount_count kvs hkm
    obtain ⟨cnt, hwc, hcp, hcl, hrcread, hrctrunc⟩ := wc_spec (JMembers.count kvs) hklen
    by_cases hks0 : kvs = JMembers.nil
    · subst hks0
      refine ⟨3 :: cnt ++ [], ?_, by simp, fun pre f hf => ?_⟩
      · simp [write_value, hkc, hwc, write_members, except_bind_ok, except_pure]
      · rcases f with _ | f
        · simp at hf
        · have hcne : cnt ≠ [] := by
            intro hcon
            rw [hcon] at hcp
            simp at hcp
          have hdrop : ((3 : Nat) :: cnt ++ []).dropLast = 3 :: cnt.dropLast := by
            rw [List.append_nil, List.dropLast_cons_of_ne_nil hcne]
          rw [hdrop]
          have hc : pre.length < (pre ++ 3 :: cnt.dropLast).length := by
            simp
          have hb : byteAt (pre ++ 3 :: cnt.dropLast) pre.length = 3 := by
            simpa using byteAt_mid0 pre 3 cnt.dropLast []
          have hrcT : read_compressed (pre ++ 3 :: cnt.dropLast) (pre.length + 1) =
              .error .truncated := by
            have := hrctrunc (pre ++ [3])
            simp only [List.append_assoc, List.length_append, List.length_cons,
              List.length_nil, List.cons_append, List.nil_append] at this ⊢
            convert this using 2
          simp only [read_value, if_pos hc, hb]
          norm_num
          try norm_num at hrcT
          rw [hrcT]
          simp [except_bind_err]
    · obtain ⟨parts, hwm, hpne, hfold⟩ := trunc_members kvs hkm hks0
      refine ⟨3 :: cnt ++ parts, ?_, by simp, fun pre f hf => ?_⟩
      · simp [write_value, hkc, hwc, hwm, except_bind_ok, except_pure]
      · rcases f with _ | f
        · simp at hf
        · have hdrop : ((3 : Nat) :: cnt ++ parts).dropLast =
              3 :: cnt ++ parts.dropLast := by
            rw [show (3 : Nat) :: cnt ++ parts = 3 :: (cnt ++ parts) by simp,
              List.dropLast_cons_of_ne_nil (by simp [hpne]),
              List.dropLast_append_of_ne_nil cnt hpne]
            simp
          rw [hdrop]
          have hc : pre.length < (pre ++ (3 :: cnt ++ parts.dropLast)).length := by
            simp
          have hb : byteAt (pre ++ (3 :: cnt ++ parts.dropLast)) pre.length = 3 := by
            simpa using byteAt_mid0 pre 3 (cnt ++ parts.dropLast) []
          have hrc : read_compressed (pre ++ (3 :: cnt ++ parts.dropLast))
              (pre.length + 1) =
              .ok (JMembers.count kvs, pre.length + 1 + cnt.length) := by
            have := hrcread (pre ++ [3]) (parts.dropLast)
            simp only [List.append_assoc, List.length_append, List.length_cons,
              List.length_nil, List.cons_append, List.nil_append] at this ⊢
            convert this using 2
          have hbuf : (pre ++ (3 :: cnt)) ++ parts.dropLast =
              pre ++ (3 :: cnt ++ parts.dropLast) := by
            simp
          have hfi := hfold (pre ++ (3 :: cnt)) f [] (by simp at hf ⊢; omega)
          rw [hbuf] at hfi
          have hplen2 : (pre ++ (3 :: cnt)).length = pre.length + 1 + cnt.length := by
            simp
            omega
          rw [hplen2] at hfi
          simp only [read_value, if_pos hc, hb]
          norm_num
          try norm_num at hrc
          try norm_num at hfi
          rw [hrc]
          simp only [except_bind_ok]
          rw [hfi]
          simp [except_bind_err]
  | .vbin bs, hG => by
    exact absurd hG (by intro h; cases h)
  | .vundef, hG => by
    exact absurd hG (by intro h; cases h)

/-- Truncation safety, element-list level: with the last byte of the
concatenated element encodings dropped, the untyped-array fold of read_value
fails with the truncation error. -/
theorem trunc_list : ∀ xs : JList, RTGoodList xs → xs ≠ .nil →
    ∃ bs : List Nat, write_list xs = .ok bs ∧ bs ≠ [] ∧
      ∀ (pre : List Nat) (f : Nat) (acc : List DVal), bs.length ≤ f →
        (List.replicate (JList.length xs) ()).foldlM
          (fun (p : List DVal × Nat) _ => do
            let (v, c2) ← read_value (pre ++ bs.dropLast) f p.2
            pure (p.1 ++ [v], c2))
          (acc, pre.length)
        = .error .truncated
  | .nil, _, hne => absurd rfl hne
  | .cons x xt, hG, _ => by
    rcases hG with _ | ⟨_, _, hx, hxt⟩
    by_cases hxt0 : xt = JList.nil
    · subst hxt0
      obtain ⟨bx, hwx, hbne, hrx⟩ := trunc_val x hx
      refine ⟨bx ++ [], by simp [write_list, hwx, except_bind_ok, except_pure],
        by simp [hbne], fun pre f acc hf => ?_⟩
      have hlen : JList.length (JList.cons x .nil) = 1 := rfl
      rw [hlen]
      have hstep := hrx pre f (by simp at hf; omega)
      simp only [List.append_nil] at hstep ⊢
      simp only [List.replicate_succ, List.replicate_zero, List.foldlM_cons]
      rw [hstep]
      simp [except_bind_err]
    · obtain ⟨bx, hwx, hxne, hrx⟩ := write_read_val x hx
      obtain ⟨bt, hwt, htne, hft⟩ := trunc_list xt hxt hxt0
      refine ⟨bx ++ bt, by simp [write_list, hwx, hwt, except_bind_ok, except_pure],
        by simp [hxne], fun pre f acc hf => ?_⟩
      have hlen : JList.length (.cons x xt) = JList.length xt + 1 := rfl
      rw [hlen, List.replicate_succ, List.foldlM_cons]
      have hdrop : (bx ++ bt).dropLast = bx ++ bt.dropLast :=
        List.dropLast_append_of_ne_nil bx htne
      rw [hdrop]
      have htp : 0 < bt.length := List.length_pos.mpr htne
      have hbuf : pre ++ (bx ++ bt.dropLast) = pre ++ bx ++ bt.dropLast := by simp
      have hstep := hrx pre (bt.dropLast) f (by simp at hf; omega)
      rw [show pre ++ bx ++ bt.dropLast = pre ++ (bx ++ bt.dropLast) by simp] at hstep
      rw [hstep]
      have hrec := hft (pre ++ bx) f (acc ++ [dOf x]) (by simp at hf ⊢; omega)
      rw [show (pre ++ bx) ++ bt.dropLast = pre ++ (bx ++ bt.dropLast) by simp] at hrec
      have hplen : (pre ++ bx).length = pre.length + bx.length := by simp
      rw [hplen] at hrec
      simp only [except_bind_ok, except_pure] at hrec ⊢
      rw [hrec]

/-- Truncation safety, member-list level: with the last byte of the member
encodings dropped, the object fold of read_value fails with the truncation
error. -/
theorem trunc_members : ∀ kvs : JMembers, RTGoodMembers kvs → kvs ≠ .nil →
    ∃ bs : List Nat, write_members kvs = .ok bs ∧ bs ≠ [] ∧
      ∀ (pre : List Nat) (f : Nat) (acc : List (List Nat × DVal)), bs.length ≤ f →
        (List.replicate (JMembers.count kvs) ()).foldlM
          (fun (p : List (List Nat × DVal) × Nat) _ => do
            let (size, c2) ← read_compressed (pre ++ bs.dropLast) p.2
            if c2 + size ≤ (pre ++ bs.dropLast).length then do
              let (v, c3) ← read_value (pre ++ bs.dropLast) f (c2 + size)
              pure (jsInsert p.1 (utf8Decode (slice (pre ++ bs.dropLast) c2 size)) v, c3)
            else .error .truncated)
          (acc, pre.length)
        = .error .truncated
  | .nil, _, hne => absurd rfl hne
  | .cons k v kt, hG, _ => by
    rcases hG with _ | ⟨_, _, _, hasc, hklen, hv, hkt⟩
    have hk16 : utf16Length k = k.length := ascii_utf16Length k hasc
    have hkenc : utf8Encode k = k := ascii_utf8Encode k hasc
    obtain ⟨ck, hwck, hckp, hckl, hckread, hcktrunc⟩ := wc_spec (utf16Length k)
      (by rw [hk16]; exact hklen)
    by_cases hkt0 : kt = JMembers.nil
    · subst hkt0
      obtain ⟨bv, hwv, hvne, hrv⟩ := trunc_val v hv
      refine ⟨ck ++ k ++ bv ++ [], ?_, by simp [hvne], fun pre f acc hf => ?_⟩
      · simp [write_members, rtgood_not_undef v hv, hwck, hwv, hkenc, write_members,
          except_bind_ok, except_pure]
      · have hcount : JMembers.count (JMembers.cons k v .nil) = 1 := rfl
        rw [hcount]
        simp only [List.append_nil] at *
        have hdrop : (ck ++ k ++ bv).dropLast = ck ++ k ++ bv.dropLast := by
          rw [show ck ++ k ++ bv = (ck ++ k) ++ bv by simp,
            List.dropLast_append_of_ne_nil (ck ++ k) hvne]
        rw [hdrop]
        simp only [List.replicate_succ, List.replicate_zero, List.foldlM_cons]
        have hrck : read_compressed (pre ++ (ck ++ k ++ bv.dropLast)) pre.length =
            .ok (utf16Length k, pre.length + ck.length) := by
          have := hckread pre (k ++ bv.dropLast)
          simp only [List.append_assoc] at this ⊢
          exact this
        rw [hrck]
        simp only [except_bind_ok]
        have hbp : 0 < bv.length := List.length_pos.mpr hvne
        have hinb : pre.length + ck.length + utf16Length k ≤
            (pre ++ (ck ++ k ++ bv.dropLast)).length := by
          simp [hk16, List.length_dropLast]
          omega
        rw [if_pos hinb]
        have hrvv := hrv (pre ++ ck ++ k) f (by simp at hf; omega)
        rw [show (pre ++ ck ++ k) ++ bv.dropLast = pre ++ (ck ++ k ++ bv.dropLast)
          by simp] at hrvv
        have hcur : pre.length + ck.length + utf16Length k = (pre ++ ck ++ k).length := by
          simp [hk16]
          omega
        rw [hcur, hrvv]
        simp [except_bind_err]
    · obtain ⟨bv, hwv, hvne, hrv⟩ := write_read_val v hv
      obtain ⟨bt, hwt, htne, hft⟩ := trunc_members kt hkt hkt0
      refine ⟨ck ++ k ++ bv ++ bt, ?_, by simp [hvne], fun pre f acc hf => ?_⟩
      · simp [write_members, rtgood_not_undef v hv, hwck, hwv, hwt, hkenc,
          except_bind_ok, except_pure]
      · have hcount : JMembers.count (.cons k v kt) = JMembers.count kt + 1 := rfl
        rw [hcount, List.replicate_succ, List.foldlM_cons]
        have hdrop : (ck ++ k ++ bv ++ bt).dropLast = ck ++ k ++ bv ++ bt.dropLast := by
          rw [show ck ++ k ++ bv ++ bt = (ck ++ k ++ bv) ++ bt by simp,
            List.dropLast_append_of_ne_nil (ck ++ k ++ bv) htne]
        rw [hdrop]
        have htp : 0 < bt.length := List.length_pos.mpr htne
        have hrck : read_compressed (pre ++ (ck ++ k ++ bv ++ bt.dropLast)) pre.length =
            .ok (utf16Length k, pre.length + ck.length) := by
          have := hckread pre (k ++ bv ++ bt.dropLast)
          simp only [List.append_assoc] at this ⊢
          exact this
        rw [hrck]
        simp only [except_bind_ok]
        have hinb : pre.length + ck.length + utf16Length k ≤
            (pre ++ (ck ++ k ++ bv ++ bt.dropLast)).length := by
          simp [hk16, List.length_dropLast]
          omega
        rw [if_pos hinb]
        have hslk : slice (pre ++ (ck ++ k ++ bv ++ bt.dropLast))
            (pre.length + ck.length) (utf16Length k) = k := by
          have := slice_mid pre (ck ++ k ++ bv ++ bt.dropLast) [] ck.length k.length
            (by simp)
          have h2 : slice (ck ++ k ++ bv ++ bt.dropLast) ck.length k.length = k := by
            unfold slice
            rw [show ck ++ k ++ bv ++ bt.dropLast = ck ++ (k ++ (bv ++ bt.dropLast))
              by simp]
            rw [show ck.length = ck.length + 0 by omega, List.drop_append 0]
            simp [List.take_append_of_le_length]
          rw [hk16]
          rw [List.append_nil] at this
          rw [this, h2]
        rw [hslk, utf8Decode_ascii k hasc]
        have hrvv : read_value (pre ++ (ck ++ k ++ bv ++ bt.dropLast)) f
            (pre.length + ck.length + utf16Length k) = .ok (dOf v,
              pre.length + ck.length + k.length + bv.length) := by
          have := hrv (pre ++ ck ++ k) (bt.dropLast) f (by simp at hf; omega)
          simp only [List.append_assoc] at this ⊢
          rw [hk16]
          convert this using 2 <;> simp <;> omega
        rw [hrvv]
        have hrec := hft (pre ++ ck ++ k ++ bv) f (jsInsert acc k (dOf v))
          (by simp at hf ⊢; omega)
        rw [show (pre ++ ck ++ k ++ bv) ++ bt.dropLast =
            pre ++ (ck ++ k ++ bv ++ bt.dropLast) by simp] at hrec
        have hplen : (pre ++ ck ++ k ++ bv).length =
            pre.length + ck.length + k.length + bv.length := by
          simp
          omega
        rw [hplen] at hrec
        simp only [except_bind_ok, except_pure] at hrec ⊢
        rw [hrec]

end

theorem bind_ok_of {α β ε : Type} {x : Except ε α} {k : α → Except ε β} {a : α} {r : β}
    (hx : x = .ok a) (hk : k a = .ok r) : (x >>= k) = .ok r := by
  rw [hx, except_bind_ok, hk]

theorem except_bind_eq_ok {α β ε : Type} {x : Except ε α} {k : α → Except ε β} {r : β}
    (h : (x >>= k) = .ok r) : ∃ a, x = .ok a ∧ k a = .ok r := by
  cases hx : x with
  | error e =>
    rw [hx, except_bind_err] at h
    exact absurd h (by simp)
  | ok a =>
    rw [hx, except_bind_ok] at h
    exact ⟨a, rfl, h⟩

theorem except_map_eq_ok {α β ε : Type} {x : Except ε α} {g : α → β} {r : β}
    (h : (g <$> x) = .ok r) : ∃ a, x = .ok a ∧ g a = r := by
  cases hx : x with
  | error e =>
    rw [hx, except_map_err] at h
    exact absurd h (by simp)
  | ok a =>
    rw [hx, except_map_ok] at h
    exact ⟨a, rfl, by injection h⟩

theorem byteAt_ext (buf s : List Nat) (i : Nat) (h : i < buf.length) :
    byteAt (buf ++ s) i = byteAt buf i := by
  unfold byteAt
  rw [List.getD_append _ _ _ _ h]

theorem slice_ext (buf s : List Nat) (c w : Nat) (h : c + w ≤ buf.length) :
    slice (buf ++ s) c w = slice buf c w := by
  unfold slice
  rw [List.drop_append_of_le_length (by omega),
    List.take_append_of_le_length (by simp; omega)]

theorem rc_ext (buf s : List Nat) (c : Nat) (r : Nat × Nat)
    (h : read_compressed buf c = .ok r) :
    read_compressed (buf ++ s) c = .ok r := by
  simp only [read_compressed] at h ⊢
  by_cases hc : c < buf.length
  · rw [if_pos hc] at h
    rw [if_pos (show c < (buf ++ s).length by simp; omega), byteAt_ext buf s c hc]
    rcases (by omega : byteAt buf c % 4 = 0 ∨ byteAt buf c % 4 = 1 ∨
        byteAt buf c % 4 = 2 ∨ byteAt buf c % 4 = 3) with hm | hm | hm | hm <;>
      rw [hm] at h ⊢
    · exact h
    · by_cases hle : c + 2 ≤ buf.length
      · rw [if_pos hle] at h
        rw [if_pos (show c + 2 ≤ (buf ++ s).length by simp; omega),
          byteAt_ext buf s (c + 1) (by omega)]
        exact h
      · rw [if_neg hle] at h
        simp at h
    · by_cases hle : c + 4 ≤ buf.length
      · rw [if_pos hle] at h
        rw [if_pos (show c + 4 ≤ (buf ++ s).length by simp; omega),
          slice_ext buf s c 4 hle]
        exact h
      · rw [if_neg hle] at h
        simp at h
    · by_cases hle : c + 8 ≤ buf.length
      · rw [if_pos hle] at h
        rw [if_pos (show c + 8 ≤ (buf ++ s).length by simp; omega),
          slice_ext buf s c 8 hle]
        exact h
      · rw [if_neg hle] at h
        simp at h
  · rw [if_neg hc] at h
    simp at h

theorem readUIntW_ext (buf s : List Nat) (c w : Nat) (r : Nat × Nat)
    (h : readUIntW buf c w = .ok r) : readUIntW (buf ++ s) c w = .ok r := by
  unfold readUIntW at h ⊢
  by_cases hck : c + w ≤ buf.length
  · rw [if_pos hck] at h
    rw [if_pos (show c + w ≤ (buf ++ s).length by simp; omega), slice_ext buf s c w hck]
    exact h
  · rw [if_neg hck] at h
    simp at h

theorem readIntW_ext (buf s : List Nat) (c w : Nat) (r : Int × Nat)
    (h : readIntW buf c w = .ok r) : readIntW (buf ++ s) c w = .ok r := by
  unfold readIntW at h ⊢
  by_cases hck : c + w ≤ buf.length
  · rw [if_pos hck] at h
    rw [if_pos (show c + w ≤ (buf ++ s).length by simp; omega), slice_ext buf s c w hck]
    exact h
  · rw [if_neg hck] at h
    simp at h

theorem foldlM_ext {α β ε : Type} (g g2 : β → α → Except ε β) :
    ∀ (l : List α) (init : β) (r : β),
      (∀ b a rr, g b a = .ok rr → g2 b a = .ok rr) →
      List.foldlM g init l = .ok r → List.foldlM g2 init l = .ok r
  | [], _, _, _, h => h
  | a :: l, init, r, hg, h => by
    rw [List.foldlM_cons] at h ⊢
    obtain ⟨b, hb, hrest⟩ := except_bind_eq_ok h
    exact bind_ok_of (hg init a b hb) (foldlM_ext g g2 l b r hg hrest)

theorem read_fixed_elems_ext (buf s : List Nat) (w : Nat) (mk : Nat → DVal) :
    ∀ (n c : Nat) (r : List DVal × Nat),
      read_fixed_elems buf w mk n c = .ok r →
      read_fixed_elems (buf ++ s) w mk n c = .ok r
  | 0, _, _, h => h
  | n + 1, c, r, h => by
    obtain ⟨⟨u, c1⟩, hu, hrest⟩ := except_bind_eq_ok h
    obtain ⟨⟨vs, c2⟩, hvs, hpu⟩ := except_bind_eq_ok hrest
    have hpu2 : (.ok (mk u :: vs, c2) : Except DErr (List DVal × Nat)) = .ok r := hpu
    exact bind_ok_of (readUIntW_ext buf s c w (u, c1) hu)
      (bind_ok_of (read_fixed_elems_ext buf s w mk n c1 (vs, c2) hvs) hpu2)

theorem read_str_elems_ext (buf s : List Nat) :
    ∀ (n c : Nat) (r : List DVal × Nat),
      read_str_elems buf n c = .ok r →
      read_str_elems (buf ++ s) n c = .ok r
  | 0, _, _, h => h
  | n + 1, c, r, h => by
    obtain ⟨⟨size, c1⟩, hsz, hrest⟩ := except_bind_eq_ok h
    have hrest2 : (if c1 + size ≤ buf.length then
        (read_str_elems buf n (c1 + size) >>= fun q =>
          pure (.dstr (utf8Decode (slice buf c1 size)) :: q.1, q.2))
        else .error .truncated) = .ok r := hrest
    by_cases hle : c1 + size ≤ buf.length
    · rw [if_pos hle] at hrest2
      obtain ⟨⟨vs, c2⟩, hvs, hpu⟩ := except_bind_eq_ok hrest2
      have hpu2 : (.ok (.dstr (utf8Decode (slice buf c1 size)) :: vs, c2) :
          Except DErr (List DVal × Nat)) = .ok r := hpu
      refine bind_ok_of (rc_ext buf s c (size, c1) hsz) ?_
      show (if c1 + size ≤ (buf ++ s).length then
          (read_str_elems (buf ++ s) n (c1 + size) >>= fun q =>
            pure (.dstr (utf8Decode (slice (buf ++ s) c1 size)) :: q.1, q.2))
          else .error .truncated) = .ok r
      rw [if_pos (show c1 + size ≤ (buf ++ s).length by simp; omega),
        slice_ext buf s c1 size hle]
      exact bind_ok_of (read_str_elems_ext buf s n (c1 + size) (vs, c2) hvs) hpu2
    · rw [if_neg hle] at hrest2
      simp at hrest2

/-- The decoder is local: a successful read_value run is unaffected by
appending bytes to the buffer or raising the fuel.  This is the heart of the
trailing-bytes claim: readBeve re-reads with a larger buffer-length-derived
fuel, so both parameters move at once. -/
theorem rv_ext : ∀ (f : Nat) (buf s : List Nat) (f2 c : Nat) (r : DVal × Nat),
    f ≤ f2 → read_value buf f c = .ok r → read_value (buf ++ s) f2 c = .ok r
  | 0, _, _, _, _, _, _, h => by
    simp [read_value] at h
  | f + 1, buf, s, f2, c, r, hf, h => by
    rcases f2 with _ | f2
    · omega
    have hff : f ≤ f2 := by omega
    by_cases hc : c < buf.length
    · have hc2 : c < (buf ++ s).length := by
        simp
        omega
      simp only [read_value, if_pos hc] at h
      simp only [read_value, if_pos hc2, byteAt_ext buf s c hc]
      rcases (by omega : byteAt buf c % 8 = 0 ∨ byteAt buf c % 8 = 1 ∨
          byteAt buf c % 8 = 2 ∨ byteAt buf c % 8 = 3 ∨ byteAt buf c % 8 = 4 ∨
          byteAt buf c % 8 = 5 ∨ byteAt buf c % 8 = 6 ∨ byteAt buf c % 8 = 7)
        with hm | hm | hm | hm | hm | hm | hm | hm <;>
        simp only [hm] at h ⊢
      · -- tag 0: null / boolean, buffer-independent
        exact h
      · -- tag 1: number
        rcases (by omega : byteAt buf c / 8 % 4 = 0 ∨ byteAt buf c / 8 % 4 = 1 ∨
            byteAt buf c / 8 % 4 = 2 ∨ byteAt buf c / 8 % 4 = 3) with hn | hn | hn | hn <;>
        rcases (by omega : byteAt buf c / 32 % 8 = 0 ∨ byteAt buf c / 32 % 8 = 1 ∨
            byteAt buf c / 32 % 8 = 2 ∨ byteAt buf c / 32 % 8 = 3 ∨
            byteAt buf c / 32 % 8 = 4 ∨ byteAt buf c / 32 % 8 = 5 ∨
            byteAt buf c / 32 % 8 = 6 ∨ byteAt buf c / 32 % 8 = 7)
          with hi | hi | hi | hi | hi | hi | hi | hi <;>
        simp only [hn, hi] at h ⊢ <;>
        first
        | exact h
        | (obtain ⟨a, ha, hk⟩ := except_bind_eq_ok h
           exact bind_ok_of (readUIntW_ext buf s _ _ a ha) hk)
        | (obtain ⟨a, ha, hk⟩ := except_bind_eq_ok h
           exact bind_ok_of (readIntW_ext buf s _ _ a ha) hk)
      · -- tag 2: string
        obtain ⟨⟨size, c1⟩, hrc, hrest⟩ := except_bind_eq_ok h
        have hrest2 : (if c1 + size ≤ buf.length then
            (pure (.dstr (utf8Decode (slice buf c1 size)), c1 + size) :
              Except DErr (DVal × Nat))
            else .error .truncated) = .ok r := hrest
        by_cases hle : c1 + size ≤ buf.length
        · rw [if_pos hle] at hrest2
          refine bind_ok_of (rc_ext buf s _ _ hrc) ?_
          show (if c1 + size ≤ (buf ++ s).length then
              (pure (.dstr (utf8Decode (slice (buf ++ s) c1 size)), c1 + size) :
                Except DErr (DVal × Nat))
              else .error .truncated) = .ok r
          rw [if_pos (show c1 + size ≤ (buf ++ s).length by simp; omega),
            slice_ext buf s c1 size hle]
          exact hrest2
        · rw [if_neg hle] at hrest2
          simp at hrest2
      · -- tag 3: object
        rcases (by omega : byteAt buf c / 8 % 4 = 0 ∨ byteAt buf c / 8 % 4 = 1 ∨
            byteAt buf c / 8 % 4 = 2 ∨ byteAt buf c / 8 % 4 = 3) with hn | hn | hn | hn <;>
          simp only [hn] at h ⊢ <;>
          obtain ⟨⟨n, c1⟩, hrc, hrest⟩ := except_bind_eq_ok h <;>
          obtain ⟨rr, hfold, hk⟩ := except_bind_eq_ok hrest <;>
          refine bind_ok_of (rc_ext buf s _ _ hrc)
            (bind_ok_of (foldlM_ext _ _ (List.replicate n ()) ([], c1) rr ?_ hfold) hk) <;>
          intro p u r' hbod
        · obtain ⟨⟨size, c2⟩, hsz, hrest3⟩ := except_bind_eq_ok hbod
          have hrest4 : (if c2 + size ≤ buf.length then
              (read_value buf f (c2 + size) >>= fun q =>
                pure (jsInsert p.1 (utf8Decode (slice buf c2 size)) q.1, q.2))
              else .error .truncated) = .ok r' := hrest3
          by_cases hle : c2 + size ≤ buf.length
          · rw [if_pos hle] at hrest4
            obtain ⟨⟨v, c3⟩, hv, hk2⟩ := except_bind_eq_ok hrest4
            refine bind_ok_of (rc_ext buf s _ _ hsz) ?_
            show (if c2 + size ≤ (buf ++ s).length then
                (read_value (buf ++ s) f2 (c2 + size) >>= fun q =>
                  pure (jsInsert p.1 (utf8Decode (slice (buf ++ s) c2 size)) q.1, q.2))
                else .error .truncated) = .ok r'
            rw [if_pos (show c2 + size ≤ (buf ++ s).length by simp; omega),
              slice_ext buf s c2 size hle]
            exact bind_ok_of (rv_ext f buf s f2 (c2 + size) (v, c3) hff hv) hk2
          · rw [if_neg hle] at hrest4
            simp at hrest4
        · have he : (.error .intKeys : Except DErr (List (List Nat × DVal) × Nat)) =
              .ok r' := hbod
          simp at he
        · have he : (.error .intKeys : Except DErr (List (List Nat × DVal) × Nat)) =
              .ok r' := hbod
          simp at he
        · have he : (.error .intKeys : Except DErr (List (List Nat × DVal) × Nat)) =
              .ok r' := hbod
          simp at he
      · -- tag 4: typed array
        rcases (by omega : byteAt buf c / 8 % 4 = 0 ∨ byteAt buf c / 8 % 4 = 1 ∨
            byteAt buf c / 8 % 4 = 2 ∨ byteAt buf c / 8 % 4 = 3) with hn | hn | hn | hn
        · rcases (by omega : byteAt buf c / 32 % 8 = 0 ∨ byteAt buf c / 32 % 8 = 1 ∨
              byteAt buf c / 32 % 8 = 2 ∨ byteAt buf c / 32 % 8 = 3 ∨
              byteAt buf c / 32 % 8 = 4 ∨ byteAt buf c / 32 % 8 = 5 ∨
              byteAt buf c / 32 % 8 = 6 ∨ byteAt buf c / 32 % 8 = 7)
            with hi | hi | hi | hi | hi | hi | hi | hi <;>
          simp only [hn, hi] at h ⊢ <;>
          first
          | (obtain ⟨a, hrc, hk⟩ := except_bind_eq_ok h
             exact bind_ok_of (rc_ext buf s _ _ hrc) hk)
          | (obtain ⟨⟨n, c1⟩, hrc, hrest⟩ := except_bind_eq_ok h
             obtain ⟨a, hfe, hk⟩ := except_bind_eq_ok hrest
             exact bind_ok_of (rc_ext buf s _ _ hrc)
               (bind_ok_of (read_fixed_elems_ext buf s _ _ _ _ a hfe) hk))
        · rcases (by omega : byteAt buf c / 32 % 8 = 0 ∨ byteAt buf c / 32 % 8 = 1 ∨
              byteAt buf c / 32 % 8 = 2 ∨ byteAt buf c / 32 % 8 = 3 ∨
              byteAt buf c / 32 % 8 = 4 ∨ byteAt buf c / 32 % 8 = 5 ∨
              byteAt buf c / 32 % 8 = 6 ∨ byteAt buf c / 32 % 8 = 7)
            with hi | hi | hi | hi | hi | hi | hi | hi <;>
          simp only [hn, hi] at h ⊢ <;>
          first
          | (obtain ⟨a, hrc, hk⟩ := except_bind_eq_ok h
             exact bind_ok_of (rc_ext buf s _ _ hrc) hk)
          | (obtain ⟨⟨n, c1⟩, hrc, hrest⟩ := except_bind_eq_ok h
             obtain ⟨a, hfe, hk⟩ := except_bind_eq_ok hrest
             exact bind_ok_of (rc_ext buf s _ _ hrc)
               (bind_ok_of (read_fixed_elems_ext buf s _ _ _ _ a hfe) hk))
        · rcases (by omega : byteAt buf c / 32 % 8 = 0 ∨ byteAt buf c / 32 % 8 = 1 ∨
              byteAt buf c / 32 % 8 = 2 ∨ byteAt buf c / 32 % 8 = 3 ∨
              byteAt buf c / 32 % 8 = 4 ∨ byteAt buf c / 32 % 8 = 5 ∨
              byteAt buf c / 32 % 8 = 6 ∨ byteAt buf c / 32 % 8 = 7)
            with hi | hi | hi | hi | hi | hi | hi | hi <;>
          simp only [hn, hi] at h ⊢ <;>
          first
          | (obtain ⟨a, hrc, hk⟩ := except_bind_eq_ok h
             exact bind_ok_of (rc_ext buf s _ _ hrc) hk)
          | (obtain ⟨⟨n, c1⟩, hrc, hrest⟩ := except_bind_eq_ok h
             obtain ⟨a, hfe, hk⟩ := except_bind_eq_ok hrest
             exact bind_ok_of (rc_ext buf s _ _ hrc)
               (bind_ok_of (read_fixed_elems_ext buf s _ _ _ _ a hfe) hk))
        · -- num_type 3: string or boolean typed array
          rw [if_pos hn] at h ⊢
          by_cases hbit : byteAt buf c / 32 % 2 = 1
          · rw [if_pos hbit] at h ⊢
            obtain ⟨⟨n, c1⟩, hrc, hrest⟩ := except_bind_eq_ok h
            obtain ⟨a, hse, hk⟩ := except_bind_eq_ok hrest
            exact bind_ok_of (rc_ext buf s _ _ hrc)
              (bind_ok_of (read_str_elems_ext buf s _ _ a hse) hk)
          · rw [if_neg hbit] at h ⊢
            obtain ⟨⟨n, c1⟩, hrc, hrest⟩ := except_bind_eq_ok h
            have hrest2 : (if c1 + n ≤ buf.length then
                (pure (.darr ((slice buf c1 n).map (fun b => .dbool (b != 0))), c1 + n) :
                  Except DErr (DVal × Nat))
                else .error .truncated) = .ok r := hrest
            by_cases hle : c1 + n ≤ buf.length
            · rw [if_pos hle] at hrest2
              refine bind_ok_of (rc_ext buf s _ _ hrc) ?_
              show (if c1 + n ≤ (buf ++ s).length then
                  (pure (.darr ((slice (buf ++ s) c1 n).map (fun b => .dbool (b != 0))),
                    c1 + n) : Except DErr (DVal × Nat))
                  else .error .truncated) = .ok r
              rw [if_pos (show c1 + n ≤ (buf ++ s).length by simp; omega),
                slice_ext buf s c1 n hle]
              exact hrest2
            · rw [if_neg hle] at hrest2
              simp at hrest2
      · -- tag 5: untyped array
        obtain ⟨⟨n, c1⟩, hrc, hrest⟩ := except_bind_eq_ok h
        obtain ⟨rr, hfold, hk⟩ := except_bind_eq_ok hrest
        refine bind_ok_of (rc_ext buf s _ _ hrc)
          (bind_ok_of (foldlM_ext _ _ (List.replicate n ()) ([], c1) rr ?_ hfold) hk)
        intro p u r' hbod
        obtain ⟨⟨v, c2⟩, hv, hk2⟩ := except_bind_eq_ok hbod
        exact bind_ok_of (rv_ext f buf s f2 p.2 (v, c2) hff hv) hk2
      · -- tag 6: binary
        obtain ⟨⟨size, c1⟩, hrc, hrest⟩ := except_bind_eq_ok h
        have hrest2 : (if c1 + size ≤ buf.length then
            (pure (.dbin (slice buf c1 size), c1 + size) : Except DErr (DVal × Nat))
            else .error .truncated) = .ok r := hrest
        by_cases hle : c1 + size ≤ buf.length
        · rw [if_pos hle] at hrest2
          refine bind_ok_of (rc_ext buf s _ _ hrc) ?_
          show (if c1 + size ≤ (buf ++ s).length then
              (pure (.dbin (slice (buf ++ s) c1 size), c1 + size) :
                Except DErr (DVal × Nat))
              else .error .truncated) = .ok r
          rw [if_pos (show c1 + size ≤ (buf ++ s).length by simp; omega),
            slice_ext buf s c1 size hle]
          exact hrest2
        · rw [if_neg hle] at hrest2
          simp at hrest2
      · -- tag 7: unknown type
        have he : (.error .unknownType : Except DErr (DVal × Nat)) = .ok r := h
        simp at he
    · simp only [read_value, if_neg hc] at h
      simp at h

/-! ## Claim theorems

Each claim of the specification review is settled by one named theorem below
(with a separate counterexample theorem where the claim as stated fails, and
a witness theorem where the main theorem carries hypotheses). -/

/-- C3 counterexample.  The claim asserts boolean typed arrays are bit-packed
LSB-first, with encoding [true, false, true] producing a typed-array encoding
whose single payload byte is 0b00000101 = 5.  In fact the encoder emits the
generic-array form - header 5 (major type 5, not typed-array major type 4),
size byte, and one full header byte per boolean, five bytes in total - and
the decoder of the typed boolean form reads one byte per element, so the
claimed packed wire form [0x1C, 12, 0b101] (header with major 4 / num_type 3 /
bool, count 3, one packed byte) does not even decode: it fails with a
truncation error because three payload bytes are demanded. -/
theorem C3_bool_packing_counterexample :
    writeBeve (jarr [.vbool true, .vbool false, .vbool true]) = .ok [5, 12, 24, 8, 24] ∧
    readBeve [28, 12, 5] = .error .truncated := ⟨rfl, rfl⟩

/-- C3 amended.  Boolean arrays are not bit-packed on either side: the encoder
writes every boolean array as a generic array (header 5, compressed count,
then one header byte 24/8 per element - shown for [true, false, true] and for
nine booleans, which take nine payload bytes, not two); the decoder of the
typed boolean form (major 4, num_type 3, bit 5 clear) reads exactly one byte
per element, mapping a nonzero byte to true, shown on [0x1C, 12, 1, 0, 1]. -/
theorem C3_bool_packing_amended :
    writeBeve (jarr [.vbool true, .vbool false, .vbool true]) = .ok [5, 12, 24, 8, 24] ∧
    writeBeve (jarr (List.replicate 9 (.vbool true))) =
      .ok (5 :: 36 :: List.replicate 9 24) ∧
    readBeve [28, 12, 1, 0, 1] =
      .ok (.darr [.dbool true, .dbool false, .dbool true]) := ⟨rfl, rfl, rfl⟩

/-- C4.  The VarSize boundary behavior of writeCompressed/read_compressed:
63 takes tag 0 (one byte), 64/65/16383 take tag 1 (two bytes), 16384/16385
take tag 2 (four bytes), 1073741824 takes tag 3 (eight bytes), and each
decodes back to N - but encoding 1073741823 throws instead of producing the
tag-2 form, because the source computes (N << 2) | 2 in JS 32-bit signed
arithmetic, which overflows to -2 for this N, and append_uint32 rejects
negative input.  The tag of each encoding is its first byte modulo 4. -/
theorem C4_varsize_boundary :
    (writeCompressed 63 = .ok [252] ∧ read_compressed [252] 0 = .ok (63, 1)) ∧
    (writeCompressed 64 = .ok [1, 1] ∧ read_compressed [1, 1] 0 = .ok (64, 2)) ∧
    (writeCompressed 65 = .ok [5, 1] ∧ read_compressed [5, 1] 0 = .ok (65, 2)) ∧
    (writeCompressed 16383 = .ok [253, 255] ∧
      read_compressed [253, 255] 0 = .ok (16383, 2)) ∧
    (writeCompressed 16384 = .ok [2, 0, 1, 0] ∧
      read_compressed [2, 0, 1, 0] 0 = .ok (16384, 4)) ∧
    (writeCompressed 16385 = .ok [6, 0, 1, 0] ∧
      read_compressed [6, 0, 1, 0] 0 = .ok (16385, 4)) ∧
    writeCompressed 1073741823 = .error .u32 ∧
    (writeCompressed 1073741824 = .ok [3, 0, 0, 0, 1, 0, 0, 0] ∧
      read_compressed [3, 0, 0, 0, 1, 0, 0, 0] 0 = .ok (1073741824, 8)) :=
  ⟨⟨rfl, rfl⟩, ⟨rfl, rfl⟩, ⟨rfl, rfl⟩, ⟨rfl, rfl⟩, ⟨rfl, rfl⟩, ⟨rfl, rfl⟩, rfl, rfl, rfl⟩

/-- C6 counterexample.  The claim asserts that a header whose sub-fields
select an unassigned combination raises UnsupportedEncoding.  The header
byte 1 selects major type 1 (number), kind float, byte-count index 0 (1 byte)
- an unassigned combination - yet decoding returns the value undefined
without any error: the source switch falls through every arm and read_value
returns undefined. -/
theorem C6_unassigned_counterexample : readBeve [1] = .ok .dundef := rfl

/-- C6 amended.  Major type 7 always raises the Unknown-type error, for every
header byte with low bits 111 and any following bytes; but a number header
with an unassigned width combination silently returns undefined instead of
raising: shown for a float of width 1 (header 1), a float of width 2
(header 33), a float with byte-count index 4 (header 129, config lookup out
of range), and a signed integer with byte-count index 5 (header 169). -/
theorem C6_unassigned_amended :
    (∀ (b : Nat) (rest : List Nat), b % 8 = 7 →
      readBeve (b :: rest) = .error .unknownType) ∧
    readBeve [1] = .ok .dundef ∧
    readBeve [33] = .ok .dundef ∧
    readBeve [129] = .ok .dundef ∧
    readBeve [169] = .ok .dundef := by
  refine ⟨fun b rest h => ?_, rfl, rfl, rfl, rfl⟩
  have hb : byteAt (b :: rest) 0 = b := rfl
  simp only [readBeve, List.length_cons, read_value, hb, h]
  simp [Except.map]

/-- C6 witness: the universally quantified part of the amended claim applied
at the concrete header byte 15 (low bits 111) with one trailing byte. -/
theorem C6_unassigned_witness : readBeve [15, 99] = .error .unknownType :=
  C6_unassigned_amended.1 15 [99] (by decide)

/-- C8 counterexample.  The claim asserts decodeUUID flags a mismatch between
the wire version byte and the version nibble of byte 6 as InconsistentUuid.
In fact decodeUUID performs no check at all: on a buffer whose version byte
is 3 while byte 6 of the UUID carries version nibble 4, it returns the
mismatched record unchanged (and its return type has no warning channel). -/
theorem C8_uuid_counterexample :
    decodeUUID [3, 0, 0, 0, 0, 0, 0, 64, 0, 0, 0, 0, 0, 0, 0, 0, 0] 0 =
      ({ version := 3, bytes := [0, 0, 0, 0, 0, 0, 64, 0, 0, 0, 0, 0, 0, 0, 0, 0] }, 17) ∧
    getUUIDVersion [0, 0, 0, 0, 0, 0, 64, 0, 0, 0, 0, 0, 0, 0, 0, 0] = .ok 4 ∧
    (3 : Nat) ≠ 4 := ⟨rfl, rfl, by decide⟩

/-- C8 amended.  decodeUUID returns the wire version byte and the sixteen raw
bytes verbatim, with no consistency checking of any kind; a version-byte /
embedded-nibble mismatch is detectable only through the separately callable
validateUUID, which returns false on the mismatched record of the
counterexample. -/
theorem C8_uuid_amended :
    (∀ (buf : List Nat) (c : Nat),
      decodeUUID buf c = ({ version := byteAt buf c, bytes := slice buf (c + 1) 16 }, c + 17)) ∧
    validateUUID { version := 3, bytes := [0, 0, 0, 0, 0, 0, 64, 0, 0, 0, 0, 0, 0, 0, 0, 0] }
      = false :=
  ⟨fun _ _ => rfl, rfl⟩

/-- C10.  The encoder treats undefined as null wherever a value is expected:
writeBeve of undefined equals writeBeve of null byte for byte, and an array
whose undefined elements are replaced by null encodes to exactly the same
bytes as the original array; except inside objects, where the encoding of an
object equals the encoding of the object with every undefined-valued member
removed (so the encoded member count is the count of defined members). -/
theorem C10_undefined_handling :
    writeBeve .vundef = writeBeve .vnull ∧
    (∀ xs : JList, writeBeve (.varr (undefToNullL xs)) = writeBeve (.varr xs)) ∧
    (∀ kvs : JMembers,
      writeBeve (.vobj (JMembers.filterDefined kvs)) = writeBeve (.vobj kvs)) := by
  refine ⟨rfl, fun xs => ?_, fun kvs => ?_⟩
  · simp [writeBeve, write_value, undefToNullL_length xs, write_list_undefToNull xs]
  · simp [writeBeve, write_value, keptCount_filterDefined kvs, write_members_filterDefined kvs]

/-- C9.  readBeve reads exactly one value at offset 0 and never inspects what
follows it: whenever a buffer decodes successfully, appending any byte suffix
leaves the decoded value unchanged, and no error is raised for the unconsumed
trailing bytes. -/
theorem C9_trailing_bytes (b s : List Nat) (v : DVal) (h : readBeve b = .ok v) :
    readBeve (b ++ s) = .ok v := by
  unfold readBeve at h ⊢
  obtain ⟨⟨v0, c0⟩, hrv, hmap⟩ := except_map_eq_ok h
  have hvv : v0 = v := hmap
  have hext := rv_ext (b.length + 1) b s ((b ++ s).length + 1) 0 (v0, c0)
    (by rw [List.length_append]; omega) hrv
  rw [hext]
  simp [Except.map, hvv]

/-- C9 witness: the null encoding [0] decodes to null with the trailing byte
99 ignored. -/
theorem C9_trailing_bytes_witness : readBeve ([0] ++ [99]) = .ok .dnull :=
  C9_trailing_bytes [0] [99] .dnull rfl

/-- C1 counterexample.  The round-trip claim fails on two representable
inputs.  The integral number 2 ^ 64 (a representable double, accepted by the
encoder because the uint64 range guard 18446744073709551615 rounds to 2 ^ 64)
is written as eight zero payload bytes and decodes to 0, not 2 ^ 64.  And an
object with the non-ASCII key é is encoded with a size field of 1 (the UTF-16
key length) against two UTF-8 key bytes, so decoding returns an object whose
only key is the replacement character U+FFFD with an undefined value - not
the original member. -/
theorem C1_roundtrip_counterexample :
    writeBeve (.vint 18446744073709551616) = .ok [113, 0, 0, 0, 0, 0, 0, 0, 0] ∧
    readBeve [113, 0, 0, 0, 0, 0, 0, 0, 0] = .ok (.dbigint 0) ∧
    (0 : Int) ≠ 18446744073709551616 ∧
    writeBeve (.vobj (.cons [233] (.vbool false) .nil)) = .ok [3, 4, 4, 195, 169, 8] ∧
    readBeve [3, 4, 4, 195, 169, 8] = .ok (.dobj [([65533], .dundef)]) ∧
    dOf (.vobj (.cons [233] (.vbool false) .nil)) = .dobj [([233], .dbool false)] :=
  ⟨rfl, rfl, by norm_num, rfl, rfl, rfl⟩

/-- C1 amended.  Round trip holds on RTGood values: trees of null, booleans,
integral numbers in the signed/unsigned 64-bit window, floats, strings of
Unicode scalar values, arrays, and objects with distinct ASCII keys (all size
fields below 2 ^ 29): encoding succeeds and decoding the encoding returns
exactly the dOf image - the same booleans, numbers by magnitude and sign,
strings, array elements in order, and object members in insertion order. -/
theorem C1_roundtrip (v : JVal) (h : RTGood v) :
    ∃ bs, writeBeve v = .ok bs ∧ readBeve bs = .ok (dOf v) := by
  obtain ⟨bs, hw, hne, hr⟩ := write_read_val v h
  refine ⟨bs, hw, ?_⟩
  have hv := hr [] [] (bs.length + 1) (by omega)
  simp only [List.nil_append, List.append_nil, List.length_nil] at hv
  simp [readBeve, hv, Except.map]

/-- C1 witness: the amended round trip applied to the object
\x7ba: [300, null]\x7d. -/
theorem C1_roundtrip_witness :
    ∃ bs, writeBeve (.vobj (.cons [97] (.varr (.cons (.vint 300)
        (.cons .vnull .nil))) .nil)) = .ok bs ∧
      readBeve bs = .ok (dOf (.vobj (.cons [97] (.varr (.cons (.vint 300)
        (.cons .vnull .nil))) .nil))) :=
  C1_roundtrip (.vobj (.cons [97] (.varr (.cons (.vint 300) (.cons .vnull .nil))) .nil))
    (RTGood.obj _ (by decide) (by decide)
      (RTGoodMembers.cons _ _ _ (by decide) (by decide)
        (RTGood.arr _ (by decide)
          (RTGoodList.cons _ _ (RTGood.int 300 (by decide) (by decide))
            (RTGoodList.cons _ _ RTGood.null RTGoodList.nil)))
        RTGoodMembers.nil))

/-- C2 counterexample.  The width rule fails at the integral value 2 ^ 64:
the encoder writes it (header 113: number, num_type 2 = unsigned, byte-count
index 3 = 8 bytes) even though no width of the 1/2/4/8 table contains the
value - the uint64 guard's literal 18446744073709551615 rounds to 2 ^ 64, and
the wrapped payload is eight zero bytes. -/
theorem C2_number_width_counterexample :
    writeBeve (.vint 18446744073709551616) = .ok [113, 0, 0, 0, 0, 0, 0, 0, 0] ∧
    (∀ w ∈ config, ¬ fitsU w 18446744073709551616) ∧
    (113 : Nat) / 8 % 4 = 2 ∧ (113 : Nat) / 32 % 8 = 3 ∧ config.getD 3 0 = 8 := by
  refine ⟨rfl, ?_, rfl, rfl, rfl⟩
  intro w hw
  simp [config] at hw
  rcases hw with rfl | rfl | rfl | rfl <;> norm_num [fitsU]

/-- C2 amended.  Within the signed / unsigned 64-bit windows the numeric
width rule holds exactly: a float value always gets header 97 with an 8-byte
payload; a negative integral value gets the signed header
9 + 32 * widthIndex w where w = minSW n is in the 1/2/4/8 table, contains n
in two's complement, and is minimal among the table widths containing n, with
a w-byte payload; a non-negative integral value gets the unsigned header
17 + 32 * widthIndex w with w = minUW n minimal likewise. -/
theorem C2_number_width :
    (∀ bits : Nat,
      writeBeve (.vfloat bits) = .ok (97 :: leBytes 8 bits) ∧
        (leBytes 8 bits).length = 8) ∧
    (∀ n : Int, -9223372036854775808 ≤ n → n < 0 →
      ∃ payload,
        writeBeve (.vint n) = .ok ((9 + 32 * widthIndex (minSW n)) :: payload) ∧
        payload.length = minSW n ∧ minSW n ∈ config ∧ fitsS (minSW n) n ∧
        (∀ w ∈ config, fitsS w n → minSW n ≤ w)) ∧
    (∀ n : Int, 0 ≤ n → n < 18446744073709551616 →
      ∃ payload,
        writeBeve (.vint n) = .ok ((17 + 32 * widthIndex (minUW n)) :: payload) ∧
        payload.length = minUW n ∧ minUW n ∈ config ∧ fitsU (minUW n) n ∧
        (∀ w ∈ config, fitsU w n → minUW n ≤ w)) := by
  refine ⟨fun bits => ⟨rfl, leBytes_length 8 _⟩, fun n hlo hneg => ?_, fun n h0 hhi => ?_⟩
  · by_cases h8 : -128 ≤ n
    · have hmin : minSW n = 1 := by simp [minSW, h8]
      rw [hmin]
      refine ⟨append_int8 n, ?_, leBytes_length 1 _, by simp [config], ?_, ?_⟩
      · simp [writeBeve, write_value, hneg, h8, widthIndex]
      · norm_num [fitsS]
        omega
      · intro w hw hfit
        simp [config] at hw
        rcases hw with rfl | rfl | rfl | rfl <;> omega
    · by_cases h16 : -32768 ≤ n
      · have hmin : minSW n = 2 := by simp [minSW, h8, h16]
        rw [hmin]
        refine ⟨append_int16 n, ?_, leBytes_length 2 _, by simp [config], ?_, ?_⟩
        · simp [writeBeve, write_value, hneg, h8, h16, widthIndex]
        · norm_num [fitsS]
          omega
        · intro w hw hfit
          simp [config] at hw
          rcases hw with rfl | rfl | rfl | rfl <;> norm_num [fitsS] at hfit <;> omega
      · by_cases h32 : -2147483648 ≤ n
        · have hmin : minSW n = 4 := by simp [minSW, h8, h16, h32]
          rw [hmin]
          refine ⟨append_int32 n, ?_, leBytes_length 4 _, by simp [config], ?_, ?_⟩
          · simp [writeBeve, write_value, hneg, h8, h16, h32, widthIndex]
          · norm_num [fitsS]
            omega
          · intro w hw hfit
            simp [config] at hw
            rcases hw with rfl | rfl | rfl | rfl <;> norm_num [fitsS] at hfit <;> omega
        · have hmin : minSW n = 8 := by simp [minSW, h8, h16, h32]
          rw [hmin]
          refine ⟨append_int64 n, ?_, leBytes_length 8 _, by simp [config], ?_, ?_⟩
          · simp [writeBeve, write_value, hneg, h8, h16, h32, widthIndex]
          · norm_num [fitsS]
            omega
          · intro w hw hfit
            simp [config] at hw
            rcases hw with rfl | rfl | rfl | rfl <;> norm_num [fitsS] at hfit <;> omega
  · have hneg : ¬ n < 0 := by omega
    by_cases h8 : n ≤ 255
    · have hmin : minUW n = 1 := by simp [minUW, h8]
      rw [hmin]
      refine ⟨[n.toNat], ?_, rfl, by simp [config], ?_, ?_⟩
      · simp [writeBeve, write_value, hneg, h8, append_uint8_ok n h0 h8, widthIndex]
      · norm_num [fitsU]
        omega
      · intro w hw hfit
        simp [config] at hw
        rcases hw with rfl | rfl | rfl | rfl <;> omega
    · by_cases h16 : n ≤ 65535
      · have hmin : minUW n = 2 := by simp [minUW, h8, h16]
        rw [hmin]
        refine ⟨leBytes 2 n.toNat, ?_, leBytes_length 2 _, by simp [config], ?_, ?_⟩
        · simp [writeBeve, write_value, hneg, h8, h16, append_uint16_ok n h0 h16, widthIndex]
        · norm_num [fitsU]
          omega
        · intro w hw hfit
          simp [config] at hw
          rcases hw with rfl | rfl | rfl | rfl <;> norm_num [fitsU] at hfit <;> omega
      · by_cases h32 : n ≤ 4294967295
        · have hmin : minUW n = 4 := by simp [minUW, h8, h16, h32]
          rw [hmin]
          refine ⟨leBytes 4 n.toNat, ?_, leBytes_length 4 _, by simp [config], ?_, ?_⟩
          · simp [writeBeve, write_value, hneg, h8, h16, h32,
              append_uint32_ok n h0 h32, widthIndex]
          · norm_num [fitsU]
            omega
          · intro w hw hfit
            simp [config] at hw
            rcases hw with rfl | rfl | rfl | rfl <;> norm_num [fitsU] at hfit <;> omega
        · have hmin : minUW n = 8 := by simp [minUW, h8, h16, h32]
          rw [hmin]
          refine ⟨leBytes 4 (n.toNat % 4294967296) ++
              leBytes 4 (n.toNat / 4294967296 % 4294967296), ?_,
            by simp [leBytes_length], by simp [config], ?_, ?_⟩
          · simp [writeBeve, write_value, hneg, h8, h16, h32,
              append_uint64_ok n h0 (by omega), widthIndex]
          · norm_num [fitsU]
            omega
          · intro w hw hfit
            simp [config] at hw
            rcases hw with rfl | rfl | rfl | rfl <;> norm_num [fitsU] at hfit <;> omega

/-- C2 witness: the amended width rule applied at the negative integral value
-300, which selects the 2-byte signed width. -/
theorem C2_number_width_witness :
    ∃ payload,
      writeBeve (.vint (-300)) = .ok ((9 + 32 * widthIndex (minSW (-300))) :: payload) ∧
      payload.length = minSW (-300) ∧ minSW (-300) ∈ config ∧
      fitsS (minSW (-300)) (-300) ∧
      (∀ w ∈ config, fitsS w (-300) → minSW (-300) ≤ w) :=
  C2_number_width.2.1 (-300) (by norm_num) (by norm_num)

/-- C5 counterexample.  Truncation safety fails on a valid encoder output:
the object with the single non-ASCII key é encodes to six bytes, and because
the member's size field holds the UTF-16 key length 1 against two UTF-8 key
bytes, the decoder never needs the final byte: decoding the five-byte strict
prefix succeeds and silently returns a (mangled) value instead of raising a
truncation error. -/
theorem C5_truncation_counterexample :
    writeBeve (.vobj (.cons [233] (.vbool false) .nil)) = .ok [3, 4, 4, 195, 169, 8] ∧
    readBeve [3, 4, 4, 195, 169, 8].dropLast = .ok (.dobj [([65533], .dundef)]) :=
  ⟨rfl, rfl⟩

/-- C5 amended.  On RTGood values (trees of null, booleans, 64-bit-window
integral numbers, floats, scalar strings, arrays, objects with distinct ASCII
keys, size fields below 2 ^ 29) truncation safety holds: the encoder
succeeds, and decoding the encoding with its last byte removed fails with the
buffer-overflow (truncated-input) error - no value is returned. -/
theorem C5_truncation (v : JVal) (h : RTGood v) :
    ∃ bs, writeBeve v = .ok bs ∧ readBeve bs.dropLast = .error .truncated := by
  obtain ⟨bs, hw, hne, hr⟩ := trunc_val v h
  have hp : 0 < bs.length := List.length_pos.mpr hne
  refine ⟨bs, hw, ?_⟩
  have hv := hr [] (bs.dropLast.length + 1) (by rw [List.length_dropLast]; omega)
  simp only [List.nil_append, List.length_nil, List.length_dropLast] at hv
  simp [readBeve, hv, Except.map]

/-- C5 witness: the amended truncation safety applied at the number 5, whose
encoding is the two bytes [17, 5]. -/
theorem C5_truncation_witness :
    ∃ bs, writeBeve (.vint 5) = .ok bs ∧ readBeve bs.dropLast = .error .truncated :=
  C5_truncation (.vint 5) (RTGood.int 5 (by decide) (by decide))

/-- C7 counterexample.  The encoder does fail on a well-formed value: the
representable integral number 10 ^ 21 exceeds the unsigned 64-bit guard of
append_uint64 and writeBeve throws (error u64) instead of returning bytes. -/
theorem C7_encoder_totality_counterexample :
    writeBeve (.vint 1000000000000000000000) = .error .u64 := rfl

/-- C7 amended.  On EncGood values - trees of null, undefined, booleans,
arbitrary floats, integral numbers within the signed/unsigned 64-bit windows,
arbitrary strings, binary blobs, arrays and objects with every size field
(element count, member count, string byte length, key UTF-16 length, binary
length) below 2 ^ 29 - the encoder always returns bytes. -/
theorem C7_encoder_totality (v : JVal) (h : EncGood v) :
    ∃ bs, writeBeve v = .ok bs :=
  enc_ok_val v h

/-- C7 witness: the amended totality applied to an array holding undefined, a
binary blob, and a float. -/
theorem C7_encoder_totality_witness :
    ∃ bs, writeBeve (.varr (.cons .vundef (.cons (.vbin [1, 2])
      (.cons (.vfloat 123456789) .nil)))) = .ok bs :=
  C7_encoder_totality (.varr (.cons .vundef (.cons (.vbin [1, 2])
      (.cons (.vfloat 123456789) .nil))))
    (EncGood.arr _ (by decide)
      (EncGoodList.cons _ _ EncGood.undef
        (EncGoodList.cons _ _ (EncGood.bin _ (by decide))
          (EncGoodList.cons _ _ (EncGood.float 123456789) EncGoodList.nil))))

end Beve
